import Mathlib

/-!
Verification of the git-analyzer ingestion / reconciliation / classification
pipeline.  Every definition in this file is a shallow embedding of a function
of the JavaScript source (file and line references are given on each
definition).  JavaScript strings are modelled as Lean `String` (`List Char`
based); only ASCII data is exercised, where JS UTF-16 semantics and Lean
code-point semantics agree.  SQLite DATETIME strings are modelled as integers
ordered chronologically.  Database tables are modelled as Lean lists in rowid
(insertion) order.
-/

namespace GitAnalyzer

/-! ## JavaScript string primitives -/

/-- JS whitespace test for the characters that occur in this code base
(`\s` of the source regexes restricted to ASCII). -/
def jsIsWs (c : Char) : Bool :=
  c == ' ' || c == '\t' || c == '\n' || c == '\r'

/-- `String.prototype.toLowerCase` on ASCII characters: map the range
`A`..`Z` (codes 65..90) to codes 97..122, leave everything else alone. -/
def jsCharLower (c : Char) : Char :=
  if 65 ≤ c.toNat ∧ c.toNat ≤ 90 then Char.ofNat (c.toNat + 32) else c

/-- `s.toLowerCase()`. -/
def jsLower (s : String) : String :=
  ⟨s.data.map jsCharLower⟩

/-- `s.trim()`. -/
def jsTrim (s : String) : String :=
  ⟨((s.data.dropWhile jsIsWs).reverse.dropWhile jsIsWs).reverse⟩

/-- `s.startsWith(p)`. -/
def jsStartsWith (s p : String) : Bool :=
  p.data.isPrefixOf s.data

/-- `s.endsWith(p)`. -/
def jsEndsWith (s p : String) : Bool :=
  p.data.isSuffixOf s.data

/-- The test of a JS regex `/^\s*P/` where `P` is a literal marker: optional
leading whitespace followed by the marker. -/
def jsWsThen (s marker : String) : Bool :=
  marker.data.isPrefixOf (s.data.dropWhile jsIsWs)

/-- `s.split(sep)[1] || ''` for a one-character separator: the second field of
the split, or the empty string when there is none (an empty second field and a
missing one both yield `''` through JS `||`). -/
def jsSecondField (s : String) (sep : Char) : String :=
  match (s.data.splitOn sep) with
  | _ :: second :: _ => ⟨second⟩
  | _ => ""

/-- `s.split(/\s+/)[0]`: JS splitting on whitespace runs yields an empty first
field when the string starts with whitespace, otherwise the maximal leading
run of non-whitespace characters. -/
def jsFirstWsField (s : String) : String :=
  match s.data with
  | [] => ""
  | c :: _ => if jsIsWs c then "" else ⟨s.data.takeWhile (fun d => !jsIsWs d)⟩

/-! ## `src/utils/file-exclusions.js` -/

/-- The config-file extension list of `isConfigFile`
(`src/utils/file-exclusions.js:88`). -/
def configExtensions : List String :=
  [".json", ".xml", ".config", ".yml", ".yaml", ".env", ".ini", ".toml"]

/-- `isConfigFile` (`src/utils/file-exclusions.js:87-91`): the lower-cased
path ends with one of the config extensions. -/
def isConfigFile (filepath : String) : Bool :=
  configExtensions.any (fun ext => jsEndsWith (jsLower filepath) ext)

/-! ## `src/services/analysis.js`: vague-message rule -/

/-- The word tokens of `VAGUE_PATTERNS` (`src/services/analysis.js:6-21`),
each an anchored case-insensitive exact match; `/^changes?$/i` contributes
both `change` and `changes`. -/
def vagueTokens : List String :=
  ["fix", "update", "change", "changes", "wip", "test", "asdf",
   "misc", "stuff", "done", "commit", "save"]

/-- `/^\w$/`: a single ASCII word character. -/
def jsIsWordChar (c : Char) : Bool :=
  (65 ≤ c.toNat && c.toNat ≤ 90) || (97 ≤ c.toNat && c.toNat ≤ 122) ||
  (48 ≤ c.toNat && c.toNat ≤ 57) || c == '_'

/-- Whether the trimmed message matches one of `VAGUE_PATTERNS`
(`src/services/analysis.js:6-21`): a low-information token (case-insensitive),
a non-empty run of periods (`/^\.+$/`), a non-empty run of dashes (`/^-+$/`),
or a single word character (`/^\w$/`). -/
def matchesVagueToken (t : String) : Bool :=
  vagueTokens.any (fun w => jsLower t == w) ||
  (!t.data.isEmpty && t.data.all (fun c => c == '.')) ||
  (!t.data.isEmpty && t.data.all (fun c => c == '-')) ||
  (t.data.length == 1 && t.data.all jsIsWordChar)

/-- `isVagueMessage` (`src/services/analysis.js:124-136`): empty or shorter
than 10 characters; or the trimmed message matches a vague pattern; or it is a
single whitespace-free word and the message is under 20 characters. -/
def isVagueMessage (message : String) : Bool :=
  if message == "" || message.data.length < 10 then true
  else if matchesVagueToken (jsTrim message) then true
  else if !(jsTrim message).data.any jsIsWs && message.data.length < 20 then true
  else false

/-! ## `src/utils/diff-parser.js` -/

/-- One parsed diff line (`type` of the source object is `kind` here,
`'add' | 'remove' | 'context'`). -/
structure DiffLine where
  kind : String
  content : String
deriving Repr, DecidableEq

/-- One parsed hunk (`parseDiff`, `src/utils/diff-parser.js:58-65`). -/
structure DiffHunk where
  oldStart : Nat
  oldLines : Nat
  newStart : Nat
  newLines : Nat
  header : String
  lines : List DiffLine
deriving Repr, DecidableEq

/-- One parsed file change (`parseDiff`, `src/utils/diff-parser.js:27-34`). -/
structure DiffFile where
  oldPath : Option String
  newPath : Option String
  status : String
  linesAdded : Nat
  linesRemoved : Nat
  hunks : List DiffHunk
deriving Repr, DecidableEq

/-- Positions at which `sep` occurs as a sublist of `l`. -/
def sepPositions (sep l : List Char) : List Nat :=
  (List.range l.length).filter (fun i => sep.isPrefixOf (l.drop i))

/-- The match of `/diff --git a\/(.+) b\/(.+)/` at the start of the scanned
text: the literal `diff --git a/`, then a greedy non-empty group, then
` b/`, then a non-empty group.  Greediness of the first `(.+)` makes the
separator the last ` b/` occurrence that leaves both groups non-empty. -/
def matchGitHeaderAt (l : List Char) : Option (String × String) :=
  let lit := "diff --git a/".data
  if lit.isPrefixOf l then
    let rest := l.drop lit.length
    let sep := " b/".data
    match (sepPositions sep rest).filter
        (fun i => 0 < i ∧ i + sep.length < rest.length) |>.getLast? with
    | some i => some (⟨rest.take i⟩, ⟨rest.drop (i + sep.length)⟩)
    | none => none
  else none

/-- Leftmost search of the git file header pattern in a line
(`line.match(/diff --git a\/(.+) b\/(.+)/)`, `src/utils/diff-parser.js:26`). -/
def searchGitHeader : List Char → Option (String × String)
  | [] => matchGitHeaderAt []
  | c :: rest =>
    match matchGitHeaderAt (c :: rest) with
    | some r => some r
    | none => searchGitHeader rest

/-- Digits of a decimal numeral, `parseInt` style. -/
def digitsToNat (ds : List Char) : Nat :=
  ds.foldl (fun acc c => 10 * acc + (c.toNat - 48)) 0

/-- The numeric fields and trailing header of a hunk header, when
`/@@ -(\d+)(?:,(\d+))? \+(\d+)(?:,(\d+))? @@(.*)?/` matches at the start of
the scanned text.  A missing count group defaults to 1
(`parseInt(hunkMatch[2] || 1)`, `src/utils/diff-parser.js:60`). -/
def matchHunkHeaderAt (l : List Char) : Option (Nat × Nat × Nat × Nat × String) :=
  if "@@ -".data.isPrefixOf l then
    let r0 := l.drop 4
    let d1 := r0.takeWhile Char.isDigit
    let r1 := r0.dropWhile Char.isDigit
    if d1.isEmpty then none else
    let (c1, r2) :=
      match r1 with
      | ',' :: tl =>
        let ds := tl.takeWhile Char.isDigit
        if ds.isEmpty then (1, r1) else (digitsToNat ds, tl.dropWhile Char.isDigit)
      | _ => (1, r1)
    if " +".data.isPrefixOf r2 then
      let r3 := r2.drop 2
      let d2 := r3.takeWhile Char.isDigit
      let r4 := r3.dropWhile Char.isDigit
      if d2.isEmpty then none else
      let (c2, r5) :=
        match r4 with
        | ',' :: tl =>
          let ds := tl.takeWhile Char.isDigit
          if ds.isEmpty then (1, r4) else (digitsToNat ds, tl.dropWhile Char.isDigit)
        | _ => (1, r4)
      if " @@".data.isPrefixOf r5 then
        some (digitsToNat d1, c1, digitsToNat d2, c2, ⟨r5.drop 3⟩)
      else none
    else none
  else none

/-- Leftmost search of the hunk header pattern in a line
(`line.match(...)`, `src/utils/diff-parser.js:56`). -/
def searchHunkHeader : List Char → Option (Nat × Nat × Nat × Nat × String)
  | [] => matchHunkHeaderAt []
  | c :: rest =>
    match matchHunkHeaderAt (c :: rest) with
    | some r => some r
    | none => searchHunkHeader rest

/-- Append a line to the last hunk of a hunk list. -/
def appendToLastHunk (dl : DiffLine) : List DiffHunk → List DiffHunk
  | [] => []
  | [h] => [{ h with lines := h.lines ++ [dl] }]
  | h :: rest => h :: appendToLastHunk dl rest

/-- The loop state of `parseDiff`: accumulated files, the file being built,
and the `inHunk` flag. -/
structure DiffParseState where
  files : List DiffFile
  current : Option DiffFile
  inHunk : Bool

/-- One iteration of the `parseDiff` line loop
(`src/utils/diff-parser.js:18-84`). -/
def parseDiffLine (st : DiffParseState) (line : String) : DiffParseState :=
  if jsStartsWith line "diff --git" then
    let paths := searchGitHeader line.data
    { files := st.files ++ st.current.toList,
      current := some
        { oldPath := paths.map Prod.fst,
          newPath := paths.map Prod.snd,
          status := "modified", linesAdded := 0, linesRemoved := 0, hunks := [] },
      inHunk := false }
  else
    match st.current with
    | none => st
    | some cf0 =>
      let cf :=
        if jsStartsWith line "new file mode" then { cf0 with status := "added" }
        else if jsStartsWith line "deleted file mode" then { cf0 with status := "deleted" }
        else if jsStartsWith line "rename from" then
          { cf0 with status := "renamed", oldPath := some ⟨line.data.drop 12⟩ }
        else if jsStartsWith line "rename to" then
          { cf0 with newPath := some ⟨line.data.drop 10⟩ }
        else cf0
      if jsStartsWith line "@@" then
        match searchHunkHeader line.data with
        | some (os, oc, ns, nc, hd) =>
          { st with
            current := some { cf with hunks := cf.hunks ++
              [{ oldStart := os, oldLines := oc, newStart := ns, newLines := nc,
                 header := hd, lines := [] }] },
            inHunk := true }
        | none => { st with current := some cf, inHunk := true }
      else if st.inHunk && !cf.hunks.isEmpty then
        if jsStartsWith line "+" && !jsStartsWith line "+++" then
          { st with current := some { cf with
              linesAdded := cf.linesAdded + 1,
              hunks := appendToLastHunk ⟨"add", ⟨line.data.drop 1⟩⟩ cf.hunks } }
        else if jsStartsWith line "-" && !jsStartsWith line "---" then
          { st with current := some { cf with
              linesRemoved := cf.linesRemoved + 1,
              hunks := appendToLastHunk ⟨"remove", ⟨line.data.drop 1⟩⟩ cf.hunks } }
        else if jsStartsWith line " " || line == "" then
          { st with current := some { cf with
              hunks := appendToLastHunk ⟨"context", ⟨line.data.drop 1⟩⟩ cf.hunks } }
        else { st with current := some cf }
      else { st with current := some cf }

/-- `parseDiff` (`src/utils/diff-parser.js:10-92`): falsy input yields `[]`;
otherwise the line loop runs and the pending file is flushed at the end. -/
def parseDiff (diffContent : String) : List DiffFile :=
  if diffContent == "" then []
  else
    let lines := (diffContent.data.splitOn '\n').map (fun l => (⟨l⟩ : String))
    let st := lines.foldl parseDiffLine ⟨[], none, false⟩
    st.files ++ st.current.toList

/-- The VB.NET single-quote comment marker (`/^\s*'/`). -/
def vbQuote : String := ⟨[Char.ofNat 39]⟩

/-- The comment marker literals of the patterns in `isCommentOnlyChange`
(`src/utils/diff-parser.js:102-114`), each used as `/^\s*marker/`. -/
def commentMarkers : List String :=
  ["//", "#", vbQuote, "/*", "*/", "*", "<!--", "-->", "--", ";", "%"]

/-- The per-line test inside `isCommentOnlyChange`
(`src/utils/diff-parser.js:119-124`): an added or removed line refutes
comment-onliness when its trimmed content is non-empty and matches none of
the comment patterns. -/
def lineIsCommentish (content : String) : Bool :=
  content == "" || commentMarkers.any (fun m => jsWsThen content m)

/-- `isCommentOnlyChange` (`src/utils/diff-parser.js:99-130`): `false` as
soon as some added/removed hunk line has non-comment content, otherwise
`files.length > 0`. -/
def isCommentOnlyChange (diffContent : String) : Bool :=
  let files := parseDiff diffContent
  if files.all (fun f => f.hunks.all (fun h => h.lines.all (fun l =>
      if l.kind == "add" || l.kind == "remove" then lineIsCommentish (jsTrim l.content)
      else true)))
  then decide (0 < files.length)
  else false

/-! ## `src/services/analysis.js`: `analyzeCommit` -/

/-- An entry of `commit.files` as consumed by `analyzeCommit` (only the
filename is read). -/
structure AnalyzedFile where
  filename : String
deriving Repr, DecidableEq

/-- The fields of the commit object read by `analyzeCommit`; `none` models a
missing (`undefined`/`null`) JS property. -/
structure CommitData where
  linesAdded : Option Int
  linesRemoved : Option Int
  message : Option String
  filesChanged : Option Int
  files : Option (List AnalyzedFile)

/-- JS `x || 0` on a numeric field. -/
def jsOrZero : Option Int → Int
  | none => 0
  | some v => v

/-- JS `x || ''` on a string field. -/
def jsOrEmpty : Option String → String
  | none => ""
  | some s => s

/-- `totalLines` of `analyzeCommit` (`src/services/analysis.js:42`):
`(commit.linesAdded || 0) + (commit.linesRemoved || 0)`. -/
def totalChangedLines (commit : CommitData) : Int :=
  jsOrZero commit.linesAdded + jsOrZero commit.linesRemoved

/-- `firstLine` of `analyzeCommit` (`src/services/analysis.js:43-44`):
`(commit.message || '').split('\n')[0].trim()`. -/
def firstMessageLine (commit : CommitData) : String :=
  jsTrim ⟨((jsOrEmpty commit.message).data.splitOn '\n').headD []⟩

/-- Rule 1 of `analyzeCommit` (`src/services/analysis.js:46-55`). -/
def smallVagueFlag (commit : CommitData) : List String :=
  if totalChangedLines commit < 10 && isVagueMessage (firstMessageLine commit) then
    ["small_vague_commit"]
  else []

/-- Rule 2 of `analyzeCommit` (`src/services/analysis.js:58-66`). -/
def largeFlag (commit : CommitData) : List String :=
  if totalChangedLines commit > 500 || jsOrZero commit.filesChanged > 20 then
    ["large_commit"]
  else []

/-- Rule 3 of `analyzeCommit` (`src/services/analysis.js:69-79`): only
checked when `commit.files` is present and non-empty. -/
def configFlag (commit : CommitData) : List String :=
  match commit.files with
  | some fs =>
    if !fs.isEmpty then
      (if fs.all (fun f => isConfigFile f.filename) then ["config_only"] else [])
    else []
  | none => []

/-- Rule 4 of `analyzeCommit` (`src/services/analysis.js:82-91`): only
checked when the diff text is truthy. -/
def commentFlag (diffContent : Option String) : List String :=
  match diffContent with
  | some d => if d != "" && isCommentOnlyChange d then ["comment_only"] else []
  | none => []

/-- `analyzeCommit` (`src/services/analysis.js:38-119`), restricted to the
flag kinds the claims concern: the four independent rule blocks append their
flags in order.  The copy-paste and AI-pattern flags (types
`possible_copy_paste` and `possible_ai_generated`, both distinct from the
four modelled kinds) are not modelled; each flag is represented by its
`type` string, the JSON `details` payloads are not modelled. -/
def analyzeCommit (commit : CommitData) (diffContent : Option String) : List String :=
  smallVagueFlag commit ++ largeFlag commit ++ configFlag commit ++ commentFlag diffContent

/-! ## `runWithConcurrency` (sync orchestrator, lines 22-41)

The limiter keeps a set `executing` of unfinished task promises.  For each
item it starts the worker immediately, adds the promise to the set, and only
then — when `executing.size >= concurrency` — awaits `Promise.race(executing)`
before dispatching the next item.  The transition system below embeds that
control flow: `pending` counts items not yet dispatched, `inflight` counts
workers started and not finished, and `waiting` is true while the loop is
suspended on the race.  A task completion (environment event) deletes the
promise from the set; the resumption of a pending race is folded into the
completion transition (`finish`), and `finishStay` covers completions that
happen while the loop remains suspended. -/

/-- State of the `runWithConcurrency` loop. -/
structure SchedState where
  pending : Nat
  inflight : Nat
  waiting : Bool
deriving Repr, DecidableEq

/-- One step of `runWithConcurrency` with limit `N`: `dispatch` is one loop
iteration (start the worker, then block iff the set size has reached `N`);
`finish`/`finishStay` are task completions. -/
inductive SchedStep (N : Nat) : SchedState → SchedState → Prop
  | dispatch (p f : Nat) :
      SchedStep N ⟨p + 1, f, false⟩ ⟨p, f + 1, decide (N ≤ f + 1)⟩
  | finish (p f : Nat) (w : Bool) :
      SchedStep N ⟨p, f + 1, w⟩ ⟨p, f, false⟩
  | finishStay (p f : Nat) :
      SchedStep N ⟨p, f + 1, true⟩ ⟨p, f, true⟩

/-- States reachable by the limiter. -/
def SchedReachable (N : Nat) (init s : SchedState) : Prop :=
  Relation.ReflTransGen (SchedStep N) init s

/-- The initial state of a `runWithConcurrency` run over `n` items. -/
def schedInit (n : Nat) : SchedState := ⟨n, 0, false⟩

/-! ## `src/services/developer-grouping.js` -/

/-- One row of the DP loop of `levenshteinDistance`
(`src/services/developer-grouping.js:20-31`): walking `str2`; `diag`,
`aboves` come from the previous row, `left` is the entry just written. -/
def levRowAux (a : Char) : List Char → Nat → List Nat → Nat → List Nat
  | [], _, _, _ => []
  | b :: bs, diag, aboves, left =>
    let above := aboves.headD 0
    let v := if a == b then diag else 1 + min above (min left diag)
    v :: levRowAux a bs above (aboves.tailD []) v

/-- `levenshteinDistance` (`src/services/developer-grouping.js:11-35`):
row 0 is `0..n`, row `i` starts with `i`, and the result is `dp[m][n]`. -/
def levenshteinDistance (str1 str2 : String) : Nat :=
  let cs1 := str1.data
  let cs2 := str2.data
  let row0 : List Nat := List.range (cs2.length + 1)
  let final := (cs1.foldl (fun st a =>
    let i := st.2 + 1
    (i :: levRowAux a cs2 (st.1.headD 0) (st.1.tailD []) i, i)) (row0, 0)).1
  final.getLastD 0

/-- An ASCII lowercase letter (the `[a-z]` class). -/
def isLowerAlpha (c : Char) : Bool :=
  97 ≤ c.toNat && c.toNat ≤ 122

/-- Match of the middle-initial pattern `/\s+[a-z]\.?\s+/` at the head of the
text, returning the remainder after the match.  The greedy `\s+` groups are
head-tests followed by `dropWhile`; the optional dot is greedy, and if no
whitespace follows the dot the whole attempt fails, since backtracking would
require whitespace at the dot position itself. -/
def matchMidInitial (l : List Char) : Option (List Char) :=
  match l with
  | [] => none
  | c0 :: rest0 =>
    if jsIsWs c0 then
      match rest0.dropWhile jsIsWs with
      | [] => none
      | c :: r2 =>
        if isLowerAlpha c then
          match r2 with
          | '.' :: r3 =>
            match r3 with
            | [] => none
            | d :: r4 => if jsIsWs d then some (r4.dropWhile jsIsWs) else none
          | _ =>
            match r2 with
            | [] => none
            | d :: r4 => if jsIsWs d then some (r4.dropWhile jsIsWs) else none
        else none
    else none

/-- The scan of the global pass of `.replace(/\s+[a-z]\.?\s+/g, ' ')`
(`src/services/developer-grouping.js:48`): at each position, replace a match
by one space and continue after it, else keep the character.  A successful
match consumes at least three characters, so one unit of fuel per input
character never runs out; the fuel only discharges termination. -/
def replaceMidInitialsAux : Nat → List Char → List Char
  | 0, l => l
  | _ + 1, [] => []
  | fuel + 1, c :: cs =>
    match matchMidInitial (c :: cs) with
    | some rest => ' ' :: replaceMidInitialsAux fuel rest
    | none => c :: replaceMidInitialsAux fuel cs

/-- `.replace(/\s+[a-z]\.?\s+/g, ' ')` (`src/services/developer-grouping.js:48`). -/
def replaceMidInitials (l : List Char) : List Char :=
  replaceMidInitialsAux l.length l

/-- The scan of `.replace(/\s+/g, ' ')`: each step consumes at least one
character, so one unit of fuel per input character never runs out; the fuel
only discharges termination. -/
def collapseWsAux : Nat → List Char → List Char
  | 0, l => l
  | _ + 1, [] => []
  | fuel + 1, c :: cs =>
    if jsIsWs c then ' ' :: collapseWsAux fuel (cs.dropWhile jsIsWs)
    else c :: collapseWsAux fuel cs

/-- `.replace(/\s+/g, ' ')` (`src/services/developer-grouping.js:49`). -/
def collapseWs (l : List Char) : List Char :=
  collapseWsAux l.length l

/-- `normalizeName` (`src/services/developer-grouping.js:43-51`). -/
def normalizeName (name : String) : String :=
  if name == "" then ""
  else jsTrim ⟨collapseWs (replaceMidInitials (jsLower name).data)⟩

/-- `getEmailDomain` (`src/services/developer-grouping.js:56-60`):
`email.split('@')[1] || ''`. -/
def getEmailDomain (email : String) : String :=
  if email == "" then "" else jsSecondField email '@'

/-- `getFirstName` (`src/services/developer-grouping.js:65-68`):
`name.split(/\s+/)[0].toLowerCase()`. -/
def getFirstName (name : String) : String :=
  if name == "" then "" else jsLower (jsFirstWsField name)

/-- A `(name, email)` identity as compared by `areSamePerson`. -/
structure Identity where
  name : String
  email : String

/-- `areSamePerson` (`src/services/developer-grouping.js:73-104`): exact
case-insensitive email match; else same non-empty domain with first-name
Levenshtein distance below 3; else equal normalized names longer than 5. -/
def areSamePerson (identity1 identity2 : Identity) : Bool :=
  if jsLower identity1.email == jsLower identity2.email then true
  else
    let domain1 := getEmailDomain identity1.email
    let domain2 := getEmailDomain identity2.email
    let rule2 :=
      domain1 != "" && domain1 == domain2 &&
        (let firstName1 := getFirstName identity1.name
         let firstName2 := getFirstName identity2.name
         firstName1 != "" && firstName2 != "" &&
           levenshteinDistance firstName1 firstName2 < 3)
    if rule2 then true
    else
      let normalized1 := normalizeName identity1.name
      let normalized2 := normalizeName identity2.name
      normalized1 == normalized2 && 5 < normalized1.data.length

/-- A `developer_identities` row (`developer_id`, `name`, `email`). -/
structure IdentityRow where
  developerId : Nat
  name : String
  email : String
deriving Repr, DecidableEq

/-- A `developers` row (`id`, `canonical_name`). -/
structure DevRow where
  id : Nat
  canonicalName : String
deriving Repr, DecidableEq

/-- The commit columns the identity resolver touches. -/
structure AuthorCommit where
  authorName : String
  authorEmail : String
  developerId : Option Nat
deriving Repr, DecidableEq

/-- The identity-resolution tables: rows in insertion (rowid) order. -/
structure GroupState where
  developers : List DevRow
  identities : List IdentityRow
  commits : List AuthorCommit
  nextDevId : Nat
deriving Repr, DecidableEq

/-- `UPDATE commits SET developer_id = ? WHERE LOWER(author_email) = ? AND
developer_id IS NULL` (`src/services/developer-grouping.js:131-134,177-180`);
`email` is already lower-cased by the caller. -/
def attributeCommits (commits : List AuthorCommit) (email : String) (did : Nat) :
    List AuthorCommit :=
  commits.map (fun c =>
    if jsLower c.authorEmail == email && c.developerId == none then
      { c with developerId := some did }
    else c)

/-- One iteration of the `processIdentities` loop
(`src/services/developer-grouping.js:119-181`) on a distinct
`(author_name, author_email)` pair.  An exact lower-cased email hit
attributes commits without inserting a new identity; otherwise the first
`areSamePerson` match among all identities receives a new identity row
(`INSERT OR IGNORE`, unique on email) and the commits; otherwise a fresh
developer is created. -/
def processPair (st : GroupState) (pair : String × String) : GroupState :=
  let email := jsLower pair.2
  let name := if pair.1 == "" then (⟨(email.data.splitOn '@').headD []⟩ : String) else pair.1
  match st.identities.find? (fun r => jsLower r.email == email) with
  | some r => { st with commits := attributeCommits st.commits email r.developerId }
  | none =>
    match st.identities.find? (fun r => areSamePerson ⟨name, email⟩ ⟨r.name, r.email⟩) with
    | some r =>
      let st1 :=
        if st.identities.any (fun q => q.email == email) then st
        else { st with identities := st.identities ++ [⟨r.developerId, name, email⟩] }
      { st1 with commits := attributeCommits st1.commits email r.developerId }
    | none =>
      let did := st.nextDevId
      { developers := st.developers ++ [⟨did, name⟩],
        identities := st.identities ++ [⟨did, name, email⟩],
        commits := attributeCommits st.commits email did,
        nextDevId := did + 1 }

/-- `processIdentities` (`src/services/developer-grouping.js:109-182`) run
over the distinct unattributed `(author_name, author_email)` pairs in the
order `pairs` (the `SELECT DISTINCT` result order is unspecified, so it is a
parameter). -/
def processIdentities (st : GroupState) (pairs : List (String × String)) : GroupState :=
  pairs.foldl processPair st

/-- `mergeDevelopers` (`src/services/developer-grouping.js:187-204`):
reassign identities and commits from source to target, delete the source
developer row. -/
def mergeDevelopers (st : GroupState) (sourceId targetId : Nat) : GroupState :=
  { st with
    identities := st.identities.map (fun r =>
      if r.developerId == sourceId then { r with developerId := targetId } else r),
    commits := st.commits.map (fun c =>
      if c.developerId == some sourceId then { c with developerId := some targetId } else c),
    developers := st.developers.filter (fun d => d.id != sourceId) }

/-- First occurrences of the values of `l`, in order: the `GROUP BY name`
groups in first-insertion order. -/
def firstOccs (l : List String) : List String :=
  l.foldl (fun acc n => if n ∈ acc then acc else acc ++ [n]) []

/-- The `ORDER BY count DESC LIMIT 1` row of
`SELECT name, COUNT(*) ... GROUP BY name`
(`src/services/developer-grouping.js:210-217`), ties resolved to the
first-inserted name. -/
def pickTopName (names : List String) : Option String :=
  match firstOccs names with
  | [] => none
  | h :: rest =>
    some (rest.foldl (fun best n => if names.count best < names.count n then n else best) h)

/-- `updateCanonicalName` (`src/services/developer-grouping.js:209-225`). -/
def updateCanonicalName (st : GroupState) (developerId : Nat) : GroupState :=
  match pickTopName ((st.identities.filter
      (fun r => r.developerId == developerId)).map (fun r => r.name)) with
  | none => st
  | some best =>
    { st with developers := st.developers.map (fun d =>
        if d.id == developerId then { d with canonicalName := best } else d) }

/-- The merge endpoint `POST /api/developers/merge`
(`src/routes/developers.js:54-73`): `mergeDevelopers` followed by
`updateCanonicalName(target_id)` (the route rejects `source_id = target_id`
before calling). -/
def mergeAndRecompute (st : GroupState) (sourceId targetId : Nat) : GroupState :=
  updateCanonicalName (mergeDevelopers st sourceId targetId) targetId

/-! ## `src/utils/file-exclusions.js`: `isFileExcluded` -/

/-- `EXCLUDED_EXTENSIONS` (`src/utils/file-exclusions.js:3-15`). -/
def excludedExtensions : List String :=
  [".lock", ".min.js", ".min.css", ".map", ".designer.vb", ".designer.cs",
   ".Designer.vb", ".Designer.cs", ".resx", ".g.cs", ".g.vb"]

/-- `EXCLUDED_FILENAMES` (`src/utils/file-exclusions.js:17-24`). -/
def excludedFilenames : List String :=
  ["package-lock.json", "yarn.lock", "pnpm-lock.yaml", "composer.lock",
   "Gemfile.lock", "packages.lock.json"]

/-- `EXCLUDED_DIRECTORIES` (`src/utils/file-exclusions.js:26-37`). -/
def excludedDirectories : List String :=
  ["bin/", "obj/", "packages/", "node_modules/", ".vs/", ".vscode/",
   ".idea/", "TestResults/", "Debug/", "Release/"]

/-- `s.includes(sub)`. -/
def jsIncludes (s sub : String) : Bool :=
  !(sepPositions sub.data s.data).isEmpty

/-- The test of `/Migrations\/.*\.(cs|vb)$/i`
(`src/utils/file-exclusions.js:39-41`): an occurrence of `migrations/`
(case-insensitive) followed — possibly after arbitrary text — by a final
`.cs` or `.vb`. -/
def migrationsMatch (path : String) : Bool :=
  let lower := jsLower path
  (sepPositions "migrations/".data lower.data).any (fun i =>
    (jsEndsWith lower ".cs" || jsEndsWith lower ".vb") && i + 14 ≤ lower.data.length)

/-- `isFileExcluded` (`src/utils/file-exclusions.js:48-80`). -/
def isFileExcluded (filepath : String) : Bool :=
  let normalizedPath : String := ⟨filepath.data.map (fun c => if c == '\\' then '/' else c)⟩
  let filename : String := ⟨(normalizedPath.data.splitOn '/').getLastD []⟩
  let lowerFilename := jsLower filename
  excludedFilenames.any (fun f => jsLower f == lowerFilename) ||
  excludedExtensions.any (fun ext => jsEndsWith lowerFilename (jsLower ext)) ||
  excludedDirectories.any (fun dir =>
    jsIncludes normalizedPath ("/" ++ dir) || jsStartsWith normalizedPath dir) ||
  migrationsMatch normalizedPath

/-! ## Sync orchestrator (sync service, `src/unnamed/part_010`)

The orchestrator is embedded with the database as explicit state.  SQLite
DATETIME strings are modelled as integers ordered chronologically (the `new
Date(...)` comparison of the source is the integer order; the stored strings
are non-empty, so their JS truthiness tests are always true).  The platform
clients are oracles: `listCommits` / `getCommitDetails` return `Except`, a
`.error` modelling a thrown provider error.  `RepoRec.clientResult` is the
outcome of `getClientForPlatform` (lines 46-57; `.error` models the `Unknown
platform type` throw).  The repository- and commit-level fan-out runs under
`runWithConcurrency`; the per-item database writes and counter updates are
order-insensitive, and the embedding sequentialises them in input order.
The final `processIdentities()` call of `syncCommits` (line 376) acts on the
identity tables, modelled separately as `GroupState`. -/

/-- A commit as returned by `Client.listCommits`. -/
structure CommitInfo where
  sha : String
  message : String
  authorName : String
  authorEmail : String
  committedAt : Int
  isMergeCommit : Bool
deriving Repr, DecidableEq

/-- A file entry of `Client.getCommitDetails`. -/
structure DetailFile where
  filename : String
  status : String
  linesAdded : Int
  linesRemoved : Int
deriving Repr, DecidableEq

/-- The result of `Client.getCommitDetails`. -/
structure CommitDetails where
  filesChanged : Int
  linesAdded : Int
  linesRemoved : Int
  files : List DetailFile
deriving Repr, DecidableEq

/-- A `commits` table row (schema in `database/init.js`). -/
structure CommitRow where
  id : Nat
  repositoryId : Nat
  branchId : Nat
  sha : String
  message : String
  authorName : String
  authorEmail : String
  committedAt : Int
  linesAdded : Int
  linesRemoved : Int
  linesNet : Int
  filesChanged : Int
  isMergeCommit : Bool
deriving Repr, DecidableEq

/-- A `commit_files` table row (the table has no uniqueness constraint, so
`INSERT OR REPLACE` appends). -/
structure FileRow where
  commitId : Nat
  filename : String
  status : String
  linesAdded : Int
  linesRemoved : Int
  isExcluded : Bool
deriving Repr, DecidableEq

/-- A `branches` table row (columns the orchestrator reads). -/
structure BranchRow where
  id : Nat
  repositoryId : Nat
  name : String
deriving Repr, DecidableEq

/-- A `sync_log` table row (columns the orchestrator reads and writes);
`branchId` is nullable in the schema. -/
structure LogRow where
  repositoryId : Nat
  branchId : Option Nat
  syncType : String
  fromDate : Int
  toDate : Int
  status : String
  errorMessage : Option String
deriving Repr, DecidableEq

/-- The database state of the sync orchestrator, each table in rowid order,
plus the trace `calls` of the `client.listCommits` invocations
`(repository id, branch name, from, to)` made so far. -/
structure SyncDB where
  commits : List CommitRow
  commitFiles : List FileRow
  commitFlags : List (Nat × String)
  branches : List BranchRow
  syncLog : List LogRow
  nextCommitId : Nat
  nextBranchId : Nat
  calls : List (Nat × String × Int × Int)
deriving Repr, DecidableEq

/-- The aggregate result record of `syncCommits` (lines 259-265). -/
structure SyncResults where
  success : Nat
  failed : Nat
  total : Nat
  skipped : Nat
  errors : List String
deriving Repr, DecidableEq

/-- A platform client as used by `syncCommits`: both capabilities may throw
(`.error`). -/
structure Client where
  listCommits : String → Int → Int → Except String (List CommitInfo)
  getCommitDetails : String → Except String CommitDetails

/-- A selected repository row joined with its platform, together with the
outcome of `getClientForPlatform`. -/
structure RepoRec where
  id : Nat
  fullName : String
  defaultBranch : String
  clientResult : Except String Client

/-- `SELECT SUM(lines_added) as total FROM commit_files WHERE commit_id = ?`
(line 178): SQL `SUM` is `NULL` (here `none`) when no row matches. -/
def fileLinesSum (db : SyncDB) (commitId : Nat) : Option Int :=
  let rows := db.commitFiles.filter (fun f => f.commitId == commitId)
  if rows.isEmpty then none else some (rows.map FileRow.linesAdded).sum

/-- The repair test of `processCommit` (line 179): stored aggregate
`lines_added` positive while the per-file sum is zero or absent (both
`NULL` and `0` are falsy in `!fileStats.total`). -/
def needsRepair (db : SyncDB) (ex : CommitRow) : Bool :=
  0 < ex.linesAdded &&
    (match fileLinesSum db ex.id with
     | none => true
     | some v => v == 0)

/-- `processCommit` (lines 169-246).  The skip branch returns after
incrementing only `skipped` (the early `return` bypasses `results.total++`).
Otherwise: details are fetched (a throw degrades to zero details, line
188-193), the commit row is upserted — on conflict only `message`, the line
counts and `files_changed` are updated — file rows are appended, and
`analyzeCommit` flags are stored.  The conflict branch resolves the commit
id by the `(repository_id, sha)` lookup of line 216.  No operation of the
embedding throws, so the outer catch (lines 241-244) is never taken. -/
def processCommit (client : Client) (repo : RepoRec) (branchId : Nat)
    (commit : CommitInfo) (force : Bool) (db : SyncDB) (res : SyncResults) :
    SyncDB × SyncResults :=
  let existing := db.commits.find? (fun r => r.repositoryId == repo.id && r.sha == commit.sha)
  let skip :=
    match existing with
    | some ex => !force && !needsRepair db ex
    | none => false
  if skip then (db, { res with skipped := res.skipped + 1 })
  else
    let details :=
      match client.getCommitDetails commit.sha with
      | .ok d => d
      | .error _ => ⟨0, 0, 0, []⟩
    let upsert : SyncDB × Nat :=
      match existing with
      | none =>
        let cid := db.nextCommitId
        ({ db with
           commits := db.commits ++ [{
             id := cid, repositoryId := repo.id, branchId := branchId,
             sha := commit.sha, message := commit.message,
             authorName := commit.authorName, authorEmail := commit.authorEmail,
             committedAt := commit.committedAt,
             linesAdded := details.linesAdded, linesRemoved := details.linesRemoved,
             linesNet := details.linesAdded - details.linesRemoved,
             filesChanged := details.filesChanged,
             isMergeCommit := commit.isMergeCommit }],
           nextCommitId := cid + 1 }, cid)
      | some ex =>
        ({ db with commits := db.commits.map (fun r =>
             if r.id == ex.id then
               { r with
                 message := commit.message,
                 linesAdded := details.linesAdded,
                 linesRemoved := details.linesRemoved,
                 linesNet := details.linesAdded - details.linesRemoved,
                 filesChanged := details.filesChanged }
             else r) }, ex.id)
    let db1 := upsert.1
    let commitId := upsert.2
    let newFiles : List FileRow := details.files.map (fun f =>
        { commitId := commitId, filename := f.filename, status := f.status,
          linesAdded := f.linesAdded, linesRemoved := f.linesRemoved,
          isExcluded := isFileExcluded f.filename })
    let db2 := { db1 with commitFiles := db1.commitFiles ++ newFiles }
    let flags := analyzeCommit
        { linesAdded := some details.linesAdded,
          linesRemoved := some details.linesRemoved,
          message := some commit.message,
          filesChanged := some details.filesChanged,
          files := some (details.files.map (fun f => ⟨f.filename⟩)) } none
    let db3 := { db2 with commitFlags := db2.commitFlags ++ flags.map (fun t => (commitId, t)) }
    (db3, { res with success := res.success + 1, total := res.total + 1 })

/-- The commit-level fan-out of `syncCommits` (lines 331-347),
sequentialised in input order. -/
def processCommitList (client : Client) (repo : RepoRec) (branchId : Nat)
    (force : Bool) (commits : List CommitInfo) (db : SyncDB) (res : SyncResults) :
    SyncDB × SyncResults :=
  commits.foldl (fun acc c => processCommit client repo branchId c force acc.1 acc.2) (db, res)

/-- A branch item of the `syncCommits` per-repo loop: a `branches` row, or
the default-branch fallback with `id = null` (lines 277-280). -/
structure BranchItem where
  name : String
  id : Option Nat
deriving Repr, DecidableEq

/-- The incremental-resume rule of `syncCommits` (lines 311-327): take the
most recent (`ORDER BY created_at DESC LIMIT 1`) successful `commits`
`sync_log` row of this repository and branch; when its `to_date` is at least
the requested from-date, it becomes the effective start. -/
def resumeFrom (log : List LogRow) (repoId branchId : Nat) (fromDate : Int) : Int :=
  match (log.filter (fun e => e.repositoryId == repoId && e.branchId == some branchId &&
      e.syncType == "commits" && e.status == "success")).getLast? with
  | some e => if fromDate ≤ e.toDate then e.toDate else fromDate
  | none => fromDate

/-- The get-or-create of a branch record (lines 296-309): an existing row id
is reused (`ON CONFLICT ... DO UPDATE SET name = name` then `SELECT id`),
otherwise a fresh row is inserted. -/
def ensureBranch (db : SyncDB) (repoId : Nat) (br : BranchItem) : SyncDB × Nat :=
  match br.id with
  | some i => (db, i)
  | none =>
    match db.branches.find? (fun b => b.repositoryId == repoId && b.name == br.name) with
    | some b => (db, b.id)
    | none =>
      let bid := db.nextBranchId
      ({ db with
         branches := db.branches ++ [⟨bid, repoId, br.name⟩],
         nextBranchId := bid + 1 }, bid)

/-- One `(repository, branch)` attempt of `syncCommits` (lines 282-369).
Client creation happens before the branch record is ensured; a throw of
client creation or of `listCommits` is caught by the branch-level catch
(lines 360-368), which records the error and inserts a `failed` log row
carrying `branch.id` (the id of the pre-queried branch row — `null` for the
default-branch fallback) and the **requested** from-date.  Success inserts a
`success` log row with the resolved branch id and the **effective**
from-date (lines 349-353). -/
def syncBranch (fromDate toDate : Int) (force : Bool) (repo : RepoRec)
    (br : BranchItem) (acc : SyncDB × SyncResults) : SyncDB × SyncResults :=
  let db := acc.1
  let res := acc.2
  match repo.clientResult with
  | .error e =>
    ({ db with syncLog := db.syncLog ++
        [⟨repo.id, br.id, "commits", fromDate, toDate, "failed", some e⟩] },
     { res with errors := res.errors ++ [repo.fullName ++ "/" ++ br.name ++ ": " ++ e] })
  | .ok client =>
    let eb := ensureBranch db repo.id br
    let db1 := eb.1
    let branchId := eb.2
    let effFrom := if force then fromDate else resumeFrom db1.syncLog repo.id branchId fromDate
    let db2 := { db1 with calls := db1.calls ++ [(repo.id, br.name, effFrom, toDate)] }
    match client.listCommits br.name effFrom toDate with
    | .error e =>
      ({ db2 with syncLog := db2.syncLog ++
          [⟨repo.id, br.id, "commits", fromDate, toDate, "failed", some e⟩] },
       { res with errors := res.errors ++ [repo.fullName ++ "/" ++ br.name ++ ": " ++ e] })
    | .ok commits =>
      let pc := processCommitList client repo branchId force commits db2 res
      ({ pc.1 with syncLog := pc.1.syncLog ++
          [⟨repo.id, some branchId, "commits", effFrom, toDate, "success", none⟩] },
       pc.2)

/-- The branch list of one repository (lines 272-280): its `branches` rows,
or the default-branch fallback `{name: default_branch, id: null}` when none
exist. -/
def branchesForRepo (db : SyncDB) (repo : RepoRec) : List BranchItem :=
  let brs := (db.branches.filter (fun b => b.repositoryId == repo.id)).map
    (fun b => ⟨b.name, some b.id⟩)
  if brs.isEmpty then [⟨repo.defaultBranch, none⟩] else brs

/-- The per-repository loop body of `syncCommits` (lines 271-372). -/
def syncRepo (fromDate toDate : Int) (force : Bool) (acc : SyncDB × SyncResults)
    (repo : RepoRec) : SyncDB × SyncResults :=
  (branchesForRepo acc.1 repo).foldl
    (fun a br => syncBranch fromDate toDate force repo br a) acc

/-- `syncCommits` (lines 251-382) over the selected repositories, with
zero-initialised counters. -/
def syncCommits (repos : List RepoRec) (fromDate toDate : Int) (force : Bool)
    (db : SyncDB) : SyncDB × SyncResults :=
  repos.foldl (syncRepo fromDate toDate force) (db, ⟨0, 0, 0, 0, []⟩)

/-! ## Platform clients: `testConnection` (claim C9)

The axios calls are an oracle from the request path to either a response
(the `data` fields each client reads) or a thrown error.  Each
`testConnection` is embedded as the total function the source's try/catch
structure denotes: every oracle failure flows into a returned
`{success: false, message}` record. -/

/-- A thrown axios error: `message`, and the optional
`response.status` / `response.data.message`. -/
structure HttpErr where
  message : String
  status : Option Nat
  dataMessage : Option String

/-- The `response.data` fields read by the three `testConnection`
implementations. -/
structure RespData where
  count : Option Int
  login : Option String
  name : Option String
  username : Option String

/-- The HTTP oracle: one GET per request path. -/
def HttpOracle : Type := String → Except HttpErr RespData

/-- The connection-test result record `{success, message}`. -/
structure ConnResult where
  success : Bool
  message : String
deriving Repr, DecidableEq

/-- `error.response?.data?.message || error.message`. -/
def jsErrMessage (e : HttpErr) : String :=
  match e.dataMessage with
  | some m => if m == "" then e.message else m
  | none => e.message

/-- Render of an optionally-missing number inside a template string
(`undefined` when the field is absent). -/
def optCountText : Option Int → String
  | some n => toString n
  | none => "undefined"

/-- `AzureDevOpsClient.testConnection` (azure client, lines 358-371 of
`src/services/analysis.js`-adjacent module): one GET, catch-all producing
`success: false` with the provider message. -/
def azureTestConnection (get : HttpOracle) : ConnResult :=
  match get "/_apis/projects?api-version=6.0" with
  | .ok r => ⟨true, "Connected successfully. Found " ++ optCountText r.count ++ " projects."⟩
  | .error e => ⟨false, jsErrMessage e⟩

/-- `response.data.login || this.org`. -/
def jsLoginOr (login : Option String) (org : String) : String :=
  match login with
  | some l => if l == "" then org else l
  | none => org

/-- `GitHubClient.testConnection` (`src/unnamed/part_009:38-62`): try the
org endpoint; on a 404 retry as a user; all other failures — and a failing
retry — reach the outer catch and produce `success: false`. -/
def githubTestConnection (get : HttpOracle) (org : String) : ConnResult :=
  match get ("/orgs/" ++ org) with
  | .ok r => ⟨true, "Connected successfully to " ++ jsLoginOr r.login org ++ "."⟩
  | .error e =>
    match e.status with
    | some 404 =>
      match get ("/users/" ++ org) with
      | .ok r => ⟨true, "Connected successfully to " ++ jsLoginOr r.login org ++ "."⟩
      | .error e2 => ⟨false, jsErrMessage e2⟩
    | _ => ⟨false, jsErrMessage e⟩

/-- `GitLabClient.testConnection` (`src/services/gitlab.js:49-75`): try the
group endpoint; on any failure try `/user`; if that also fails, return
`success: false` with the **first** error's provider message. -/
def gitlabTestConnection (get : HttpOracle) (groupPath : String) : ConnResult :=
  match get ("/groups/" ++ groupPath) with
  | .ok r => ⟨true, "Connected successfully to " ++ jsLoginOr r.name groupPath ++ "."⟩
  | .error e =>
    match get "/user" with
    | .ok r => ⟨true, "Connected successfully as " ++ (match r.username with
        | some u => u
        | none => "undefined") ++ "."⟩
    | .error _ => ⟨false, jsErrMessage e⟩

/-! # Theorems -/

/-- Membership in a conditional singleton flag list. -/
theorem mem_ite_singleton {c : Bool} {s t : String} :
    s ∈ (if c then [t] else []) ↔ c = true ∧ s = t := by
  cases c <;> simp

/-- Membership characterisation of rule 1. -/
theorem mem_smallVagueFlag (s : String) (c : CommitData) :
    s ∈ smallVagueFlag c ↔
      (totalChangedLines c < 10 ∧ isVagueMessage (firstMessageLine c) = true) ∧
        s = "small_vague_commit" := by
  unfold smallVagueFlag
  rw [mem_ite_singleton]
  simp [Bool.and_eq_true, decide_eq_true_eq, and_assoc]

/-- Membership characterisation of rule 2. -/
theorem mem_largeFlag (s : String) (c : CommitData) :
    s ∈ largeFlag c ↔
      (500 < totalChangedLines c ∨ 20 < jsOrZero c.filesChanged) ∧ s = "large_commit" := by
  unfold largeFlag
  rw [mem_ite_singleton]
  simp [Bool.or_eq_true, decide_eq_true_eq]

/-- Membership characterisation of rule 3. -/
theorem mem_configFlag (s : String) (c : CommitData) :
    s ∈ configFlag c ↔
      (∃ fs, c.files = some fs ∧ fs ≠ [] ∧ fs.all (fun f => isConfigFile f.filename) = true) ∧
        s = "config_only" := by
  unfold configFlag
  rcases hf : c.files with _ | fs
  · simp
  · by_cases h1 : fs.isEmpty
    · simp [h1, List.isEmpty_iff.mp h1]
    · have hne : fs ≠ [] := by simpa [List.isEmpty_iff] using h1
      by_cases h2 : fs.all (fun f => isConfigFile f.filename)
      · have h2' := List.all_eq_true.mp h2
        simp [h1, h2, h2', mem_ite_singleton, hne, and_comm]
        exact fun _ => h2'
      · have h2' : ¬ ∀ x ∈ fs, isConfigFile x.filename = true := by
          simpa [List.all_eq_true] using h2
        simp [h1, h2, h2', mem_ite_singleton, hne]

/-- Membership characterisation of rule 4. -/
theorem mem_commentFlag (s : String) (d : Option String) :
    s ∈ commentFlag d ↔
      (∃ t, d = some t ∧ t ≠ "" ∧ isCommentOnlyChange t = true) ∧ s = "comment_only" := by
  unfold commentFlag
  rcases hd : d with _ | t
  · simp
  · rw [mem_ite_singleton]
    simp only [Bool.and_eq_true, bne_iff_ne, ne_eq, Option.some.injEq]
    constructor
    · rintro ⟨⟨h1, h2⟩, hs⟩
      exact ⟨⟨t, rfl, h1, h2⟩, hs⟩
    · rintro ⟨⟨u, hu, h1, h2⟩, hs⟩
      cases hu
      exact ⟨⟨h1, h2⟩, hs⟩

/-- Unfolded membership across the four modelled flag segments. -/
theorem analyzeCommit_mem (s : String) (c : CommitData) (d : Option String) :
    s ∈ analyzeCommit c d ↔
      ((totalChangedLines c < 10 ∧ isVagueMessage (firstMessageLine c) = true) ∧
        s = "small_vague_commit") ∨
      ((500 < totalChangedLines c ∨ 20 < jsOrZero c.filesChanged) ∧ s = "large_commit") ∨
      ((∃ fs, c.files = some fs ∧ fs ≠ [] ∧ fs.all (fun f => isConfigFile f.filename) = true) ∧
        s = "config_only") ∨
      ((∃ t, d = some t ∧ t ≠ "" ∧ isCommentOnlyChange t = true) ∧ s = "comment_only") := by
  unfold analyzeCommit
  simp only [List.mem_append, mem_smallVagueFlag, mem_largeFlag, mem_configFlag,
    mem_commentFlag, or_assoc]

/-- C6: the analyzer size thresholds are boundary-exact: `small_vague_commit`
fires iff total changed lines is strictly below 10 and the first message line
satisfies the vague-message rule, so exactly 10 changed lines never fires it;
`large_commit` fires iff total changed lines exceeds 500 or files changed
exceeds 20, so exactly 500 changed lines with at most 20 files never fires
it. -/
theorem c6_flag_thresholds (c : CommitData) (d : Option String) :
    ("small_vague_commit" ∈ analyzeCommit c d ↔
       totalChangedLines c < 10 ∧ isVagueMessage (firstMessageLine c) = true) ∧
    ("large_commit" ∈ analyzeCommit c d ↔
       500 < totalChangedLines c ∨ 20 < jsOrZero c.filesChanged) ∧
    (totalChangedLines c = 10 → "small_vague_commit" ∉ analyzeCommit c d) ∧
    (totalChangedLines c = 500 ∧ jsOrZero c.filesChanged ≤ 20 →
       "large_commit" ∉ analyzeCommit c d) := by
  have h1 : "small_vague_commit" ∈ analyzeCommit c d ↔
      totalChangedLines c < 10 ∧ isVagueMessage (firstMessageLine c) = true := by
    rw [analyzeCommit_mem]; simp
  have h2 : "large_commit" ∈ analyzeCommit c d ↔
      500 < totalChangedLines c ∨ 20 < jsOrZero c.filesChanged := by
    rw [analyzeCommit_mem]; simp
  refine ⟨h1, h2, ?_, ?_⟩
  · intro hten hmem
    have := h1.mp hmem
    omega
  · intro hbound hmem
    have := h2.mp hmem
    omega

/-- Witness for C6 at the boundary inputs: a commit with exactly 10 changed
lines is not flagged small/vague, and one with exactly 500 changed lines and
20 files is not flagged large. -/
theorem c6_witness :
    totalChangedLines ⟨some 10, some 0, some "fix", some 1, none⟩ = 10 ∧
    "small_vague_commit" ∉ analyzeCommit ⟨some 10, some 0, some "fix", some 1, none⟩ none ∧
    (totalChangedLines ⟨some 400, some 100, some "Refactor billing module", some 20, none⟩ = 500 ∧
      jsOrZero (CommitData.filesChanged ⟨some 400, some 100, some "Refactor billing module", some 20, none⟩) ≤ 20) ∧
    "large_commit" ∉ analyzeCommit ⟨some 400, some 100, some "Refactor billing module", some 20, none⟩ none :=
  ⟨by decide,
   (c6_flag_thresholds ⟨some 10, some 0, some "fix", some 1, none⟩ none).2.2.1 (by decide),
   by decide,
   (c6_flag_thresholds ⟨some 400, some 100, some "Refactor billing module", some 20, none⟩
     none).2.2.2 (by decide)⟩

/-- C10: `config_only` fires iff the commit has a present, non-empty file
list all of whose filenames match the config-extension set; an absent or
empty file list never yields the flag, even though it would vacuously
satisfy "every touched file is a config file". -/
theorem c10_config_only (c : CommitData) (d : Option String) :
    ("config_only" ∈ analyzeCommit c d ↔
       ∃ fs, c.files = some fs ∧ fs ≠ [] ∧ ∀ f ∈ fs, isConfigFile f.filename = true) ∧
    ((c.files = none ∨ c.files = some []) → "config_only" ∉ analyzeCommit c d) := by
  have h1 : "config_only" ∈ analyzeCommit c d ↔
      ∃ fs, c.files = some fs ∧ fs ≠ [] ∧ ∀ f ∈ fs, isConfigFile f.filename = true := by
    rw [analyzeCommit_mem]
    simp [List.all_eq_true]
  refine ⟨h1, ?_⟩
  rintro (h | h) hmem <;>
    · rcases h1.mp hmem with ⟨fs, hfs, hne, _⟩
      rw [h] at hfs
      simp_all
/-- Witness for C10: a one-config-file commit is flagged; the same commit
with an empty file list is not. -/
theorem c10_witness :
    "config_only" ∈ analyzeCommit ⟨some 3, some 0, some "Update config values now", some 1,
        some [⟨"settings/app.json"⟩]⟩ none ∧
    "config_only" ∉ analyzeCommit ⟨some 3, some 0, some "Update config values now", some 1,
        some []⟩ none :=
  ⟨(c10_config_only _ none).1.mpr ⟨[⟨"settings/app.json"⟩], rfl, by decide, by decide⟩,
   (c10_config_only _ none).2 (Or.inr rfl)⟩

/-- A conditional boolean under `if` equals `true` iff the condition implies
the value. -/
theorem ite_true_eq_true {b x : Bool} : (if b then x else true) = true ↔ (b = true → x = true) := by
  cases b <;> simp

/-- Propositional-condition variant of `ite_true_eq_true`. -/
theorem ite_true_eq_true_prop {p : Prop} [Decidable p] {x : Bool} :
    (if p then x else true) = true ↔ (p → x = true) := by
  by_cases h : p <;> simp [h]

/-- `isCommentOnlyChange` characterised: there is at least one parsed file
(hunks or not), and every added/removed hunk line is commentish after
trimming. -/
theorem isCommentOnlyChange_iff (t : String) :
    isCommentOnlyChange t = true ↔
      parseDiff t ≠ [] ∧ ∀ f ∈ parseDiff t, ∀ h ∈ f.hunks, ∀ l ∈ h.lines,
        (l.kind = "add" ∨ l.kind = "remove") → lineIsCommentish (jsTrim l.content) = true := by
  unfold isCommentOnlyChange
  have hconv : ((parseDiff t).all (fun f => f.hunks.all (fun h => h.lines.all (fun l =>
        if l.kind == "add" || l.kind == "remove" then lineIsCommentish (jsTrim l.content)
        else true)))) = true ↔
      (∀ f ∈ parseDiff t, ∀ h ∈ f.hunks, ∀ l ∈ h.lines,
        (l.kind = "add" ∨ l.kind = "remove") → lineIsCommentish (jsTrim l.content) = true) := by
    simp only [List.all_eq_true, ite_true_eq_true, Bool.or_eq_true, beq_iff_eq,
      ite_true_eq_true_prop]
  by_cases hall : ((parseDiff t).all (fun f => f.hunks.all (fun h => h.lines.all (fun l =>
      if l.kind == "add" || l.kind == "remove" then lineIsCommentish (jsTrim l.content)
      else true)))) = true
  · rw [if_pos hall]
    simp only [decide_eq_true_eq, List.length_pos]
    exact ⟨fun h => ⟨h, hconv.mp hall⟩, fun h => h.1⟩
  · rw [if_neg hall]
    constructor
    · intro h; exact absurd h (by simp)
    · rintro ⟨_, h2⟩
      exact absurd (hconv.mpr h2) hall

/-- C7 counterexample: the claim requires at least one parsed file **with
hunks** for `comment_only` to fire, but a diff consisting of a single
`diff --git` header parses to one file with zero hunks and still fires the
flag (`isCommentOnlyChange` only tests `files.length > 0`). -/
theorem c7_counterexample :
    "comment_only" ∈ analyzeCommit
        ⟨some 0, some 0, some "Update the documentation text", some 1, none⟩
        (some "diff --git a/x b/x") ∧
    ∀ f ∈ parseDiff "diff --git a/x b/x", f.hunks = [] := by
  constructor
  · decide
  · decide

/-- C7 amended: `comment_only` fires iff diff text is present and non-empty,
the parsed diff contains at least one file (with or without hunks), and
every added or removed hunk line whose trimmed content is non-empty matches
a comment-prefix pattern (the per-line test `lineIsCommentish` accepts
blank-after-trim lines). -/
theorem c7_comment_only (c : CommitData) (d : Option String) :
    "comment_only" ∈ analyzeCommit c d ↔
      ∃ t, d = some t ∧ t ≠ "" ∧ parseDiff t ≠ [] ∧
        ∀ f ∈ parseDiff t, ∀ h ∈ f.hunks, ∀ l ∈ h.lines,
          (l.kind = "add" ∨ l.kind = "remove") →
            lineIsCommentish (jsTrim l.content) = true := by
  rw [analyzeCommit_mem]
  simp only [isCommentOnlyChange_iff]
  constructor
  · intro h
    rcases h with (⟨_, hs⟩ | ⟨_, hs⟩ | ⟨_, hs⟩ | ⟨⟨t, hd, hne, hp, hl⟩, _⟩)
    · exact absurd hs (by decide)
    · exact absurd hs (by decide)
    · exact absurd hs (by decide)
    · exact ⟨t, hd, hne, hp, hl⟩
  · rintro ⟨t, hd, hne, hp, hl⟩
    exact Or.inr (Or.inr (Or.inr ⟨⟨t, hd, hne, hp, hl⟩, trivial⟩))

/-- Witness for C7's amended statement: a one-hunk all-comment diff fires
the flag. -/
theorem c7_witness :
    "comment_only" ∈ analyzeCommit
      ⟨some 1, some 0, some "Clarify comments in module", some 1, none⟩
      (some "diff --git a/a.js b/a.js\n@@ -1,1 +1,1 @@\n+// clarified\n") :=
  (c7_comment_only _ _).mpr
    ⟨"diff --git a/a.js b/a.js\n@@ -1,1 +1,1 @@\n+// clarified\n", rfl,
     by decide, by decide, by decide⟩

/-- C9: every platform client's `testConnection` returns a `{success,
message}` record on auth/network failure rather than raising: whenever the
underlying request(s) fail, the returned record has `success = false` and
carries the provider's error message (for GitHub, the non-404 failure or the
failed user retry; for GitLab, the first error after a failed user retry).
The embeddings are total functions into `ConnResult`, so no oracle outcome
escapes as an exception. -/
theorem c9_testconnection_never_throws (get : HttpOracle) (org groupPath : String) :
    (∀ e, get "/_apis/projects?api-version=6.0" = .error e →
       azureTestConnection get = ⟨false, jsErrMessage e⟩) ∧
    (∀ e e2, get ("/orgs/" ++ org) = .error e → e.status = some 404 →
       get ("/users/" ++ org) = .error e2 →
       githubTestConnection get org = ⟨false, jsErrMessage e2⟩) ∧
    (∀ e, get ("/orgs/" ++ org) = .error e → e.status ≠ some 404 →
       githubTestConnection get org = ⟨false, jsErrMessage e⟩) ∧
    (∀ e e2, get ("/groups/" ++ groupPath) = .error e → get "/user" = .error e2 →
       gitlabTestConnection get groupPath = ⟨false, jsErrMessage e⟩) := by
  refine ⟨?_, ?_, ?_, ?_⟩
  · intro e he
    simp only [azureTestConnection, he]
  · intro e e2 he hs he2
    simp only [githubTestConnection, he, hs, he2]
  · intro e he hs
    rcases h4 : e.status with _ | n
    · simp only [githubTestConnection, he, h4]
    · simp only [githubTestConnection, he, h4]
      split
      · rename_i heq
        rw [heq] at h4
        exact absurd h4 hs
      · rfl
  · intro e e2 he he2
    simp only [gitlabTestConnection, he, he2]

/-- Witness for C9: a concrete always-failing oracle yields `success = false`
records with the provider messages for all three clients. -/
theorem c9_witness :
    azureTestConnection (fun _ => .error ⟨"socket closed", none, none⟩) =
      ⟨false, "socket closed"⟩ ∧
    githubTestConnection (fun p => if p == "/orgs/acme" then .error ⟨"Not Found", some 404, some "Not Found"⟩
        else .error ⟨"Bad credentials", some 401, some "Bad credentials"⟩) "acme" =
      ⟨false, "Bad credentials"⟩ ∧
    githubTestConnection (fun _ => .error ⟨"Bad credentials", some 401, some "Bad credentials"⟩) "acme" =
      ⟨false, "Bad credentials"⟩ ∧
    gitlabTestConnection (fun _ => .error ⟨"401 Unauthorized", some 401, none⟩) "g" =
      ⟨false, "401 Unauthorized"⟩ := by
  refine ⟨?_, ?_, ?_, ?_⟩
  · exact (c9_testconnection_never_throws (fun _ => .error ⟨"socket closed", none, none⟩)
      "acme" "g").1 _ rfl
  · exact (c9_testconnection_never_throws _ "acme" "g").2.1
      ⟨"Not Found", some 404, some "Not Found"⟩
      ⟨"Bad credentials", some 401, some "Bad credentials"⟩ rfl rfl rfl
  · exact (c9_testconnection_never_throws
      (fun _ => .error ⟨"Bad credentials", some 401, some "Bad credentials"⟩) "acme" "g").2.2.1
      ⟨"Bad credentials", some 401, some "Bad credentials"⟩ rfl (by decide)
  · exact (c9_testconnection_never_throws
      (fun _ => .error ⟨"401 Unauthorized", some 401, none⟩) "g" "g").2.2.2
      ⟨"401 Unauthorized", some 401, none⟩ ⟨"401 Unauthorized", some 401, none⟩ rfl rfl

/-- The safety invariant of the bounded scheduler: at most `N` in flight,
and strictly fewer while the dispatch loop is not suspended. -/
def SchedInv (N : Nat) (s : SchedState) : Prop :=
  s.inflight ≤ N ∧ (s.waiting = false → s.inflight < N)

/-- One scheduler step preserves the invariant. -/
theorem schedStep_inv {N : Nat} {s s' : SchedState}
    (h : SchedStep N s s') (hs : SchedInv N s) : SchedInv N s' := by
  cases h with
  | dispatch p f =>
    have hf : f < N := hs.2 rfl
    refine ⟨?_, ?_⟩
    · show f + 1 ≤ N
      omega
    · show decide (N ≤ f + 1) = false → f + 1 < N
      intro hw
      simp only [decide_eq_false_iff_not, Nat.not_le] at hw
      omega
  | finish p f w =>
    have h1 : f + 1 ≤ N := hs.1
    refine ⟨?_, ?_⟩
    · show f ≤ N
      omega
    · intro _
      show f < N
      omega
  | finishStay p f =>
    have h1 : f + 1 ≤ N := hs.1
    refine ⟨?_, ?_⟩
    · show f ≤ N
      omega
    · intro hw
      exact absurd hw (by simp)

/-- C3 counterexample: the claim quantifies over every concurrency limit `N`,
but with `N = 0` the loop starts the first worker before checking the
ceiling, so a state with one task in flight is reachable and exceeds the
limit. -/
theorem c3_counterexample :
    SchedReachable 0 (schedInit 1) ⟨0, 1, true⟩ ∧
      0 < (SchedState.mk 0 1 true).inflight := by
  refine ⟨Relation.ReflTransGen.single ?_, by decide⟩
  exact SchedStep.dispatch 0 0

/-- C3 amended: for every positive concurrency limit `N`, every input length
and every reachable state of the `runWithConcurrency` loop, at most `N`
worker invocations are in flight. -/
theorem c3_concurrency_bound (N n : Nat) (hN : 1 ≤ N) (s : SchedState)
    (h : SchedReachable N (schedInit n) s) : s.inflight ≤ N := by
  have hinv : SchedInv N s := by
    induction h with
    | refl => exact ⟨Nat.zero_le _, fun _ => hN⟩
    | tail _ hstep ih => exact schedStep_inv hstep ih
  exact hinv.1

/-- Witness for C3's amended statement: with limit 3 and 10 tasks, the state
after three dispatches is reachable and within the bound. -/
theorem c3_witness :
    (1 ≤ 3 ∧ SchedReachable 3 (schedInit 10) ⟨7, 3, true⟩) ∧
      (SchedState.mk 7 3 true).inflight ≤ 3 := by
  have h1 : SchedStep 3 ⟨10, 0, false⟩ ⟨9, 1, false⟩ := SchedStep.dispatch 9 0
  have h2 : SchedStep 3 ⟨9, 1, false⟩ ⟨8, 2, false⟩ := SchedStep.dispatch 8 1
  have h3 : SchedStep 3 ⟨8, 2, false⟩ ⟨7, 3, true⟩ := SchedStep.dispatch 7 2
  have hr : SchedReachable 3 (schedInit 10) ⟨7, 3, true⟩ :=
    Relation.ReflTransGen.head h1 (Relation.ReflTransGen.head h2
      (Relation.ReflTransGen.single h3))
  exact ⟨⟨by decide, hr⟩, c3_concurrency_bound 3 10 (by decide) _ hr⟩

/-! ### Claim C4: the merge endpoint -/

/-- Commits attributed to developer `d`. -/
def commitCount (st : GroupState) (d : Nat) : Nat :=
  (st.commits.filter (fun c => c.developerId == some d)).length

/-- Identity rows owned by developer `d`. -/
def identityCount (st : GroupState) (d : Nat) : Nat :=
  (st.identities.filter (fun r => r.developerId == d)).length

theorem updateCanonicalName_commits (st : GroupState) (d : Nat) :
    (updateCanonicalName st d).commits = st.commits := by
  unfold updateCanonicalName
  split <;> rfl

theorem updateCanonicalName_identities (st : GroupState) (d : Nat) :
    (updateCanonicalName st d).identities = st.identities := by
  unfold updateCanonicalName
  split <;> rfl

theorem commits_reassign_count (l : List AuthorCommit) (s t : Nat) (hst : s ≠ t) :
    ((l.map (fun c => if c.developerId == some s then { c with developerId := some t }
        else c)).filter (fun c => c.developerId == some t)).length =
      (l.filter (fun c => c.developerId == some s)).length +
        (l.filter (fun c => c.developerId == some t)).length := by
  induction l with
  | nil => rfl
  | cons c cs ih =>
    rw [List.map_cons, List.filter_cons, List.filter_cons, List.filter_cons]
    by_cases h1 : c.developerId = some s
    · have hfc : (if c.developerId == some s then { c with developerId := some t } else c) =
          { c with developerId := some t } := by simp [h1]
      rw [hfc, if_pos (by simp), if_pos (by simp [h1]), if_neg (by simp [h1, hst]),
        List.length_cons, List.length_cons]
      omega
    · have hfc : (if c.developerId == some s then { c with developerId := some t } else c) = c := by
        simp [h1]
      rw [hfc]
      by_cases h2 : c.developerId = some t
      · rw [if_pos (by simp [h2]), if_neg (by simp [h1]), if_pos (by simp [h2]),
          List.length_cons, List.length_cons]
        omega
      · rw [if_neg (by simp [h2]), if_neg (by simp [h1]), if_neg (by simp [h2])]
        exact ih

theorem identities_reassign_count (l : List IdentityRow) (s t : Nat) (hst : s ≠ t) :
    ((l.map (fun r => if r.developerId == s then { r with developerId := t }
        else r)).filter (fun r => r.developerId == t)).length =
      (l.filter (fun r => r.developerId == s)).length +
        (l.filter (fun r => r.developerId == t)).length := by
  induction l with
  | nil => rfl
  | cons r rs ih =>
    rw [List.map_cons, List.filter_cons, List.filter_cons, List.filter_cons]
    by_cases h1 : r.developerId = s
    · have hfc : (if r.developerId == s then { r with developerId := t } else r) =
          { r with developerId := t } := by simp [h1]
      rw [hfc, if_pos (by simp), if_pos (by simp [h1]), if_neg (by simp [h1, hst]),
        List.length_cons, List.length_cons]
      omega
    · have hfc : (if r.developerId == s then { r with developerId := t } else r) = r := by
        simp [h1]
      rw [hfc]
      by_cases h2 : r.developerId = t
      · rw [if_pos (by simp [h2]), if_neg (by simp [h1]), if_pos (by simp [h2]),
          List.length_cons, List.length_cons]
        omega
      · rw [if_neg (by simp [h2]), if_neg (by simp [h1]), if_neg (by simp [h2])]
        exact ih

theorem mem_firstOccs (l : List String) (x : String) : x ∈ firstOccs l ↔ x ∈ l := by
  have key : ∀ (m : List String) (acc : List String) (y : String),
      (y ∈ m.foldl (fun a n => if n ∈ a then a else a ++ [n]) acc) ↔ (y ∈ acc ∨ y ∈ m) := by
    intro m
    induction m with
    | nil => simp
    | cons n ns ih =>
      intro acc y
      rw [List.foldl_cons]
      by_cases h : n ∈ acc
      · rw [if_pos h, ih]
        constructor
        · rintro (hy | hy)
          · exact Or.inl hy
          · exact Or.inr (List.mem_cons_of_mem _ hy)
        · rintro (hy | hy)
          · exact Or.inl hy
          · rcases List.mem_cons.mp hy with hy | hy
            · exact Or.inl (hy ▸ h)
            · exact Or.inr hy
      · rw [if_neg h, ih]
        constructor
        · rintro (hy | hy)
          · rcases List.mem_append.mp hy with hy | hy
            · exact Or.inl hy
            · simp at hy
              exact Or.inr (hy ▸ List.mem_cons_self _ _)
          · exact Or.inr (List.mem_cons_of_mem _ hy)
        · rintro (hy | hy)
          · exact Or.inl (List.mem_append.mpr (Or.inl hy))
          · rcases List.mem_cons.mp hy with hy | hy
            · exact Or.inl (List.mem_append.mpr (Or.inr (by simp [hy])))
            · exact Or.inr hy
  unfold firstOccs
  rw [key]
  simp

theorem argmax_fold_spec (l : List String) (cands : List String) (b : String) :
    (cands.foldl (fun best n => if l.count best < l.count n then n else best) b = b ∨
      cands.foldl (fun best n => if l.count best < l.count n then n else best) b ∈ cands) ∧
    l.count b ≤ l.count (cands.foldl (fun best n => if l.count best < l.count n then n else best) b) ∧
    ∀ m ∈ cands,
      l.count m ≤ l.count (cands.foldl (fun best n => if l.count best < l.count n then n else best) b) := by
  induction cands generalizing b with
  | nil => simp
  | cons n ns ih =>
    rw [List.foldl_cons]
    by_cases h : l.count b < l.count n
    · rw [if_pos h]
      obtain ⟨m1, m2, m3⟩ := ih n
      refine ⟨?_, by omega, ?_⟩
      · rcases m1 with m1 | m1
        · refine Or.inr ?_
          rw [m1]
          exact List.mem_cons_self _ _
        · exact Or.inr (List.mem_cons_of_mem _ m1)
      · intro m hm
        rcases List.mem_cons.mp hm with hm | hm
        · exact hm ▸ m2
        · exact m3 m hm
    · rw [if_neg h]
      obtain ⟨m1, m2, m3⟩ := ih b
      refine ⟨?_, m2, ?_⟩
      · rcases m1 with m1 | m1
        · exact Or.inl m1
        · exact Or.inr (List.mem_cons_of_mem _ m1)
      · intro m hm
        rcases List.mem_cons.mp hm with hm | hm
        · subst hm
          omega
        · exact m3 m hm

theorem pickTopName_spec (l : List String) (hne : l ≠ []) :
    ∃ n, pickTopName l = some n ∧ n ∈ l ∧ ∀ m ∈ l, l.count m ≤ l.count n := by
  unfold pickTopName
  cases hfo : firstOccs l with
  | nil =>
    exfalso
    rcases l with _ | ⟨a, as⟩
    · exact hne rfl
    · have : a ∈ firstOccs (a :: as) := (mem_firstOccs _ _).mpr (List.mem_cons_self _ _)
      rw [hfo] at this
      simp at this
  | cons h rest =>
    obtain ⟨m1, m2, m3⟩ := argmax_fold_spec l rest h
    refine ⟨_, rfl, ?_, ?_⟩
    · have hmem : rest.foldl (fun best n => if l.count best < l.count n then n else best) h ∈
          firstOccs l := by
        rw [hfo]
        rcases m1 with m1 | m1
        · rw [m1]
          exact List.mem_cons_self _ _
        · exact List.mem_cons_of_mem _ m1
      exact (mem_firstOccs _ _).mp hmem
    · intro m hm
      have : m ∈ firstOccs l := (mem_firstOccs _ _).mpr hm
      rw [hfo] at this
      rcases List.mem_cons.mp this with hm2 | hm2
      · exact hm2 ▸ m2
      · exact m3 m hm2

/-- C4: merging `source` into `target` (the merge endpoint: `mergeDevelopers`
followed by the canonical-name recompute) conserves commits — the target's
commit count afterwards is the sum of both counts before — reassigns every
identity row, removes every reference to the source, deletes the source
developer row, and sets the target's display name to a most frequent name
among its (post-merge) identities. -/
theorem c4_merge_conservation (st : GroupState) (s t : Nat) (hst : s ≠ t)
    (ht : ∃ n0, DevRow.mk t n0 ∈ st.developers) :
    commitCount (mergeAndRecompute st s t) t = commitCount st s + commitCount st t ∧
    identityCount (mergeAndRecompute st s t) t = identityCount st s + identityCount st t ∧
    (∀ c ∈ (mergeAndRecompute st s t).commits, c.developerId ≠ some s) ∧
    (∀ r ∈ (mergeAndRecompute st s t).identities, r.developerId ≠ s) ∧
    (∀ d ∈ (mergeAndRecompute st s t).developers, d.id ≠ s) ∧
    (((mergeAndRecompute st s t).identities.filter (fun r => r.developerId == t)) ≠ [] →
      ∃ n, DevRow.mk t n ∈ (mergeAndRecompute st s t).developers ∧
        (∃ r ∈ (mergeAndRecompute st s t).identities.filter (fun r => r.developerId == t),
           r.name = n) ∧
        ∀ m, ((((mergeAndRecompute st s t).identities.filter
            (fun r => r.developerId == t)).map IdentityRow.name).count m ≤
          (((mergeAndRecompute st s t).identities.filter
            (fun r => r.developerId == t)).map IdentityRow.name).count n)) := by
  unfold mergeAndRecompute
  set st1 := mergeDevelopers st s t with hst1
  have hcm : (updateCanonicalName st1 t).commits = st1.commits :=
    updateCanonicalName_commits st1 t
  have hid : (updateCanonicalName st1 t).identities = st1.identities :=
    updateCanonicalName_identities st1 t
  have hnames := pickTopName_spec
    ((st1.identities.filter (fun r => r.developerId == t)).map IdentityRow.name)
  refine ⟨?_, ?_, ?_, ?_, ?_, ?_⟩
  · unfold commitCount
    rw [hcm, hst1]
    exact commits_reassign_count st.commits s t hst
  · unfold identityCount
    rw [hid, hst1]
    exact identities_reassign_count st.identities s t hst
  · intro c hc
    rw [hcm, hst1] at hc
    rcases List.mem_map.mp hc with ⟨c0, _, hmap⟩
    rw [← hmap]
    by_cases h1 : c0.developerId = some s
    · rw [if_pos (by simp [h1])]
      intro h
      exact hst (Option.some.inj h).symm
    · rw [if_neg (by simp [h1])]
      exact h1
  · intro r hr
    rw [hid, hst1] at hr
    rcases List.mem_map.mp hr with ⟨r0, _, hmap⟩
    rw [← hmap]
    by_cases h1 : r0.developerId = s
    · rw [if_pos (by simp [h1])]
      exact fun h => hst h.symm
    · rw [if_neg (by simp [h1])]
      exact h1
  · intro d hd
    unfold updateCanonicalName at hd
    rcases hpick : pickTopName ((st1.identities.filter
        (fun r => r.developerId == t)).map IdentityRow.name) with _ | best
    · rw [hpick] at hd
      simp only [] at hd
      have hd1 : d ∈ st1.developers := hd
      rw [hst1] at hd1
      rcases List.mem_filter.mp hd1 with ⟨_, hne⟩
      simpa using hne
    · rw [hpick] at hd
      simp only [] at hd
      rcases List.mem_map.mp hd with ⟨d0, hd0, hmap⟩
      rw [hst1] at hd0
      rcases List.mem_filter.mp hd0 with ⟨_, hne⟩
      by_cases h1 : d0.id = t
      · rw [← hmap]
        simp [h1]
        omega
      · rw [← hmap]
        simp [h1]
        simpa using hne
  · intro hfne
    rw [hid] at hfne
    have hne2 : ((st1.identities.filter (fun r => r.developerId == t)).map IdentityRow.name) ≠ [] := by
      simpa using hfne
    obtain ⟨n, hpick, hnmem, hmax⟩ := hnames hne2
    refine ⟨n, ?_, ?_, ?_⟩
    · unfold updateCanonicalName
      rw [hpick]
      simp only []
      obtain ⟨n0, hn0⟩ := ht
      have hn1 : DevRow.mk t n0 ∈ st1.developers := by
        rw [hst1]
        exact List.mem_filter.mpr ⟨hn0, by simpa using hst.symm⟩
      refine List.mem_map.mpr ⟨⟨t, n0⟩, hn1, ?_⟩
      simp
    · rw [hid]
      rcases List.mem_map.mp hnmem with ⟨r, hr, hrn⟩
      exact ⟨r, hr, hrn⟩
    · intro m
      rw [hid]
      by_cases hm : m ∈ ((st1.identities.filter (fun r => r.developerId == t)).map IdentityRow.name)
      · exact hmax m hm
      · rw [List.count_eq_zero_of_not_mem hm]
        exact Nat.zero_le _

/-- Witness for C4: merging developer 2 (two commits) into developer 1 (one
commit) yields three commits on developer 1. -/
theorem c4_witness :
    commitCount (mergeAndRecompute
      ⟨[⟨1, "Alice"⟩, ⟨2, "Bob"⟩],
       [⟨1, "Alice", "a@x.com"⟩, ⟨2, "Bob", "b@x.com"⟩, ⟨2, "Bobby", "b2@x.com"⟩,
        ⟨2, "Bob", "b3@x.com"⟩],
       [⟨"Alice", "a@x.com", some 1⟩, ⟨"Bob", "b@x.com", some 2⟩, ⟨"Bob", "b3@x.com", some 2⟩],
       3⟩ 2 1) 1 =
    commitCount
      ⟨[⟨1, "Alice"⟩, ⟨2, "Bob"⟩],
       [⟨1, "Alice", "a@x.com"⟩, ⟨2, "Bob", "b@x.com"⟩, ⟨2, "Bobby", "b2@x.com"⟩,
        ⟨2, "Bob", "b3@x.com"⟩],
       [⟨"Alice", "a@x.com", some 1⟩, ⟨"Bob", "b@x.com", some 2⟩, ⟨"Bob", "b3@x.com", some 2⟩],
       3⟩ 2 +
    commitCount
      ⟨[⟨1, "Alice"⟩, ⟨2, "Bob"⟩],
       [⟨1, "Alice", "a@x.com"⟩, ⟨2, "Bob", "b@x.com"⟩, ⟨2, "Bobby", "b2@x.com"⟩,
        ⟨2, "Bob", "b3@x.com"⟩],
       [⟨"Alice", "a@x.com", some 1⟩, ⟨"Bob", "b@x.com", some 2⟩, ⟨"Bob", "b3@x.com", some 2⟩],
       3⟩ 1 :=
  (c4_merge_conservation
    ⟨[⟨1, "Alice"⟩, ⟨2, "Bob"⟩],
     [⟨1, "Alice", "a@x.com"⟩, ⟨2, "Bob", "b@x.com"⟩, ⟨2, "Bobby", "b2@x.com"⟩,
      ⟨2, "Bob", "b3@x.com"⟩],
     [⟨"Alice", "a@x.com", some 1⟩, ⟨"Bob", "b@x.com", some 2⟩, ⟨"Bob", "b3@x.com", some 2⟩],
     3⟩ 2 1 (by decide) ⟨"Alice", by decide⟩).1

/-! ### Claim C1: skip condition and idempotence of commit processing -/

/-- The row `processCommit` resolves for `(repository, sha)`. -/
def existingCommit (db : SyncDB) (repoId : Nat) (sha : String) : Option CommitRow :=
  db.commits.find? (fun r => r.repositoryId == repoId && r.sha == sha)

theorem processCommit_skip (client : Client) (repo : RepoRec) (branchId : Nat)
    (commit : CommitInfo) (db : SyncDB) (res : SyncResults) (ex : CommitRow)
    (hex : existingCommit db repo.id commit.sha = some ex)
    (hrep : needsRepair db ex = false) :
    processCommit client repo branchId commit false db res =
      (db, { res with skipped := res.skipped + 1 }) := by
  unfold processCommit
  unfold existingCommit at hex
  rw [hex]
  simp [hrep]

theorem processCommit_noskip_skipped (client : Client) (repo : RepoRec) (branchId : Nat)
    (commit : CommitInfo) (force : Bool) (db : SyncDB) (res : SyncResults)
    (hns : (match existingCommit db repo.id commit.sha with
            | some ex => !force && !needsRepair db ex
            | none => false) = false) :
    (processCommit client repo branchId commit force db res).2.skipped = res.skipped := by
  unfold processCommit
  unfold existingCommit at hns
  rcases hex : db.commits.find? (fun r => r.repositoryId == repo.id && r.sha == commit.sha)
    with _ | ex
  · rw [hex]
    simp
  · rw [hex] at hns ⊢
    simp only [] at hns
    simp [hns]

theorem processCommitList_all_skip (client : Client) (repo : RepoRec) (branchId : Nat)
    (commits : List CommitInfo) (db : SyncDB) (res : SyncResults)
    (hall : ∀ c ∈ commits, ∃ ex, existingCommit db repo.id c.sha = some ex ∧
        needsRepair db ex = false) :
    processCommitList client repo branchId false commits db res =
      (db, { res with skipped := res.skipped + commits.length }) := by
  induction commits generalizing res with
  | nil =>
    simp only [processCommitList, List.foldl_nil, List.length_nil, Nat.add_zero]
  | cons c cs ih =>
    obtain ⟨ex, hex, hrep⟩ := hall c (List.mem_cons_self _ _)
    have hstep := processCommit_skip client repo branchId c db res ex hex hrep
    have hrest := ih { res with skipped := res.skipped + 1 }
      (fun c hc => hall c (List.mem_cons_of_mem _ hc))
    unfold processCommitList at hrest ⊢
    rw [List.foldl_cons, hstep, hrest]
    have : res.skipped + 1 + cs.length = res.skipped + (c :: cs).length := by
      simp [List.length_cons]
      omega
    rw [this]

/-- C1: during `syncCommits`' commit processing, persistence is skipped —
only the `skipped` counter moves and the database is untouched — exactly
when a row already exists for `(repository, sha)`, `force` is false, and the
row is not in the repair state (`needsRepair`: stored aggregate lines_added
positive while the per-file sum is zero or absent).  Consequently a second
pass over commits that all already exist without a repair condition leaves
the database unchanged, skips every commit, and adds no successes. -/
theorem c1_skip_iff_idempotent (client : Client) (repo : RepoRec) (branchId : Nat)
    (commit : CommitInfo) (force : Bool) (db : SyncDB) (res : SyncResults)
    (commits : List CommitInfo) :
    ((processCommit client repo branchId commit force db res).2.skipped = res.skipped + 1 ↔
      ∃ ex, existingCommit db repo.id commit.sha = some ex ∧ force = false ∧
        needsRepair db ex = false) ∧
    ((∃ ex, existingCommit db repo.id commit.sha = some ex ∧ force = false ∧
        needsRepair db ex = false) →
      processCommit client repo branchId commit force db res =
        (db, { res with skipped := res.skipped + 1 })) ∧
    ((∀ c ∈ commits, ∃ ex, existingCommit db repo.id c.sha = some ex ∧
        needsRepair db ex = false) →
      processCommitList client repo branchId false commits db res =
        (db, { res with skipped := res.skipped + commits.length }) ∧
      (processCommitList client repo branchId false commits db res).2.success = res.success) := by
  have hskip2 : ∀ (hyp : ∃ ex, existingCommit db repo.id commit.sha = some ex ∧ force = false ∧
      needsRepair db ex = false),
      processCommit client repo branchId commit force db res =
        (db, { res with skipped := res.skipped + 1 }) := by
    rintro ⟨ex, hex, hf, hrep⟩
    subst hf
    exact processCommit_skip client repo branchId commit db res ex hex hrep
  refine ⟨?_, hskip2, ?_⟩
  · constructor
    · intro h
      by_cases hcond : (match existingCommit db repo.id commit.sha with
          | some ex => !force && !needsRepair db ex
          | none => false) = true
      · rcases hex : existingCommit db repo.id commit.sha with _ | ex
        · rw [hex] at hcond
          simp at hcond
        · rw [hex] at hcond
          simp only [Bool.and_eq_true, Bool.not_eq_true'] at hcond
          exact ⟨ex, rfl, hcond.1, hcond.2⟩
      · have hns := processCommit_noskip_skipped client repo branchId commit force db res
          (by simpa using hcond)
        omega
    · intro hyp
      rw [hskip2 hyp]
  · intro hall
    have h := processCommitList_all_skip client repo branchId commits db res hall
    exact ⟨h, by rw [h]⟩

/-- Witness for C1: re-processing a commit that already has a complete row
skips it, leaves the database unchanged and adds no success. -/
theorem c1_witness :
    processCommitList ⟨fun _ _ _ => .error "na", fun _ => .error "na"⟩
        ⟨1, "org/repo", "main", .error "na"⟩ 1 false
        [⟨"aaa", "m", "Al", "a@x", 5, false⟩]
        ⟨[⟨1, 1, 1, "aaa", "m", "Al", "a@x", 5, 0, 0, 0, 0, false⟩], [], [], [], [], 2, 1, []⟩
        ⟨0, 0, 0, 0, []⟩ =
      (⟨[⟨1, 1, 1, "aaa", "m", "Al", "a@x", 5, 0, 0, 0, 0, false⟩], [], [], [], [], 2, 1, []⟩,
       ⟨0, 0, 0, 1, []⟩) := by
  have h := (c1_skip_iff_idempotent ⟨fun _ _ _ => .error "na", fun _ => .error "na"⟩
      ⟨1, "org/repo", "main", .error "na"⟩ 1 ⟨"aaa", "m", "Al", "a@x", 5, false⟩ false
      ⟨[⟨1, 1, 1, "aaa", "m", "Al", "a@x", 5, 0, 0, 0, 0, false⟩], [], [], [], [], 2, 1, []⟩
      ⟨0, 0, 0, 0, []⟩
      [⟨"aaa", "m", "Al", "a@x", 5, false⟩]).2.2 ?_
  · exact h.1
  · intro c hc
    rw [List.mem_singleton] at hc
    subst hc
    exact ⟨⟨1, 1, 1, "aaa", "m", "Al", "a@x", 5, 0, 0, 0, 0, false⟩, by decide, by decide⟩

/-! ### Claim C2: incremental resume -/

/-- The `sync_log` predicate of the resume query (line 314-318): successful
`commits` entries of this repository and branch. -/
def resumeMatches (repoId bId : Nat) (e : LogRow) : Bool :=
  e.repositoryId == repoId && e.branchId == some bId &&
    e.syncType == "commits" && e.status == "success"

theorem resumeFrom_eq_matches (log : List LogRow) (repoId bId : Nat) (fromDate : Int) :
    resumeFrom log repoId bId fromDate =
      match (log.filter (resumeMatches repoId bId)).getLast? with
      | some e => if fromDate ≤ e.toDate then e.toDate else fromDate
      | none => fromDate := rfl

theorem resumeFrom_congr {log log' : List LogRow} (repoId bId : Nat) (fromDate : Int)
    (h : log.filter (resumeMatches repoId bId) = log'.filter (resumeMatches repoId bId)) :
    resumeFrom log repoId bId fromDate = resumeFrom log' repoId bId fromDate := by
  rw [resumeFrom_eq_matches, resumeFrom_eq_matches, h]

theorem processCommit_db_fields (client : Client) (repo : RepoRec) (branchId : Nat)
    (commit : CommitInfo) (force : Bool) (db : SyncDB) (res : SyncResults) :
    (processCommit client repo branchId commit force db res).1.syncLog = db.syncLog ∧
    (processCommit client repo branchId commit force db res).1.branches = db.branches ∧
    (processCommit client repo branchId commit force db res).1.calls = db.calls := by
  unfold processCommit
  rcases hex : db.commits.find? (fun r => r.repositoryId == repo.id && r.sha == commit.sha)
    with _ | ex
  · rw [hex]
    rcases hd : client.getCommitDetails commit.sha with e | d <;> simp [hd]
  · rw [hex]
    rcases hd : client.getCommitDetails commit.sha with e | d <;> simp only [hd] <;>
      split <;> simp

theorem processCommitList_db_fields (client : Client) (repo : RepoRec) (branchId : Nat)
    (force : Bool) (commits : List CommitInfo) (db : SyncDB) (res : SyncResults) :
    (processCommitList client repo branchId force commits db res).1.syncLog = db.syncLog ∧
    (processCommitList client repo branchId force commits db res).1.branches = db.branches ∧
    (processCommitList client repo branchId force commits db res).1.calls = db.calls := by
  induction commits generalizing db res with
  | nil => exact ⟨rfl, rfl, rfl⟩
  | cons c cs ih =>
    unfold processCommitList at ih ⊢
    rw [List.foldl_cons]
    obtain ⟨h1, h2, h3⟩ := processCommit_db_fields client repo branchId c force db res
    obtain ⟨g1, g2, g3⟩ := ih (processCommit client repo branchId c force db res).1
      (processCommit client repo branchId c force db res).2
    constructor
    · rw [g1, h1]
    constructor
    · rw [g2, h2]
    · rw [g3, h3]

theorem processCommitList_syncLog (client : Client) (repo : RepoRec) (branchId : Nat)
    (force : Bool) (commits : List CommitInfo) (db : SyncDB) (res : SyncResults) :
    (processCommitList client repo branchId force commits db res).1.syncLog = db.syncLog :=
  (processCommitList_db_fields client repo branchId force commits db res).1

theorem processCommitList_branches (client : Client) (repo : RepoRec) (branchId : Nat)
    (force : Bool) (commits : List CommitInfo) (db : SyncDB) (res : SyncResults) :
    (processCommitList client repo branchId force commits db res).1.branches = db.branches :=
  (processCommitList_db_fields client repo branchId force commits db res).2.1

theorem processCommitList_calls (client : Client) (repo : RepoRec) (branchId : Nat)
    (force : Bool) (commits : List CommitInfo) (db : SyncDB) (res : SyncResults) :
    (processCommitList client repo branchId force commits db res).1.calls = db.calls :=
  (processCommitList_db_fields client repo branchId force commits db res).2.2

theorem ensureBranch_some (db : SyncDB) (repoId : Nat) (name : String) (i : Nat) :
    ensureBranch db repoId ⟨name, some i⟩ = (db, i) := by
  unfold ensureBranch
  rfl

theorem syncBranch_calls_extends (fromDate toDate : Int) (force : Bool) (repo : RepoRec)
    (br : BranchItem) (acc : SyncDB × SyncResults) :
    ∃ ext, (syncBranch fromDate toDate force repo br acc).1.calls = acc.1.calls ++ ext := by
  have hens : (ensureBranch acc.1 repo.id br).1.calls = acc.1.calls := by
    rcases br with ⟨nm, bid⟩
    rcases bid with _ | i
    · rcases hf : acc.1.branches.find? (fun b => b.repositoryId == repo.id && b.name == nm)
        with _ | row
      · simp [ensureBranch, hf]
      · simp [ensureBranch, hf]
    · simp [ensureBranch]
  unfold syncBranch
  rcases repo.clientResult with e | cl
  · exact ⟨[], by simp⟩
  · rcases hl : cl.listCommits br.name
        (if force then fromDate
         else resumeFrom (ensureBranch acc.1 repo.id br).1.syncLog repo.id
           (ensureBranch acc.1 repo.id br).2 fromDate) toDate with e | commits
    · exact ⟨[(repo.id, br.name,
        (if force then fromDate
         else resumeFrom (ensureBranch acc.1 repo.id br).1.syncLog repo.id
           (ensureBranch acc.1 repo.id br).2 fromDate), toDate)], by simp [hl, hens]⟩
    · exact ⟨[(repo.id, br.name,
        (if force then fromDate
         else resumeFrom (ensureBranch acc.1 repo.id br).1.syncLog repo.id
           (ensureBranch acc.1 repo.id br).2 fromDate), toDate)],
        by simp [hl, processCommitList_calls, hens]⟩

theorem syncBranch_other_branch (fromDate toDate : Int) (force : Bool) (repo : RepoRec)
    (br : BranchItem) (acc : SyncDB × SyncResults) (id' : Nat) (hid : br.id = some id') :
    (∃ ext, (syncBranch fromDate toDate force repo br acc).1.syncLog = acc.1.syncLog ++ ext ∧
      ∀ e ∈ ext, e.branchId = some id') ∧
    (syncBranch fromDate toDate force repo br acc).1.branches = acc.1.branches := by
  have hens : ensureBranch acc.1 repo.id br = (acc.1, id') := by
    rcases br with ⟨nm, bid⟩
    simp only [] at hid
    rw [hid]
    exact ensureBranch_some acc.1 repo.id nm id'
  unfold syncBranch
  rcases repo.clientResult with e | cl
  · refine ⟨⟨[⟨repo.id, br.id, "commits", fromDate, toDate, "failed", some e⟩], by simp, ?_⟩,
      by simp⟩
    intro x hx
    rw [List.mem_singleton] at hx
    subst hx
    simp [hid]
  · simp only [hens]
    rcases hl : cl.listCommits br.name
        (if force then fromDate else resumeFrom acc.1.syncLog repo.id id' fromDate) toDate
      with e | commits
    · refine ⟨⟨[⟨repo.id, br.id, "commits", fromDate, toDate, "failed", some e⟩],
        by simp [hl], ?_⟩, by simp [hl]⟩
      intro x hx
      rw [List.mem_singleton] at hx
      subst hx
      simp [hid]
    · refine ⟨⟨[⟨repo.id, some id', "commits",
        (if force then fromDate else resumeFrom acc.1.syncLog repo.id id' fromDate),
        toDate, "success", none⟩],
        by simp [hl, processCommitList_syncLog], ?_⟩,
        by simp [hl, processCommitList_branches]⟩
      intro x hx
      rw [List.mem_singleton] at hx
      subst hx
      rfl

theorem syncBranch_at_target (fromDate toDate : Int) (repo : RepoRec) (cl : Client)
    (b : BranchRow) (db : SyncDB) (acc : SyncDB × SyncResults)
    (hok : repo.clientResult = .ok cl)
    (hflt : acc.1.syncLog.filter (resumeMatches repo.id b.id) =
      db.syncLog.filter (resumeMatches repo.id b.id)) :
    (repo.id, b.name, resumeFrom db.syncLog repo.id b.id fromDate, toDate) ∈
      (syncBranch fromDate toDate false repo ⟨b.name, some b.id⟩ acc).1.calls := by
  have hens : ensureBranch acc.1 repo.id ⟨b.name, some b.id⟩ = (acc.1, b.id) :=
    ensureBranch_some acc.1 repo.id b.name b.id
  have heff : resumeFrom acc.1.syncLog repo.id b.id fromDate =
      resumeFrom db.syncLog repo.id b.id fromDate :=
    resumeFrom_congr repo.id b.id fromDate hflt
  unfold syncBranch
  rw [hok]
  simp only [hens, Bool.false_eq_true, if_false, heff]
  rcases hl : cl.listCommits b.name (resumeFrom db.syncLog repo.id b.id fromDate) toDate
    with e | commits
  · simp [hl]
  · simp [hl, processCommitList_calls]

theorem syncBranch_fold_calls_extends (fromDate toDate : Int) (force : Bool) (repo : RepoRec)
    (items : List BranchItem) (acc : SyncDB × SyncResults) :
    ∃ ext, (items.foldl (fun a br => syncBranch fromDate toDate force repo br a) acc).1.calls =
      acc.1.calls ++ ext := by
  induction items generalizing acc with
  | nil => exact ⟨[], by simp⟩
  | cons i rest ih =>
    rw [List.foldl_cons]
    obtain ⟨e1, h1⟩ := syncBranch_calls_extends fromDate toDate force repo i acc
    obtain ⟨e2, h2⟩ := ih (syncBranch fromDate toDate force repo i acc)
    exact ⟨e1 ++ e2, by rw [h2, h1, List.append_assoc]⟩

theorem syncBranch_fold_target (fromDate toDate : Int) (repo : RepoRec) (cl : Client)
    (b : BranchRow) (db : SyncDB) (hok : repo.clientResult = .ok cl) :
    ∀ (items : List BranchItem) (acc : SyncDB × SyncResults),
      (⟨b.name, some b.id⟩ : BranchItem) ∈ items →
      (∀ i ∈ items, i = ⟨b.name, some b.id⟩ ∨ ∃ id', i.id = some id' ∧ id' ≠ b.id) →
      acc.1.syncLog.filter (resumeMatches repo.id b.id) =
        db.syncLog.filter (resumeMatches repo.id b.id) →
      (repo.id, b.name, resumeFrom db.syncLog repo.id b.id fromDate, toDate) ∈
        (items.foldl (fun a br => syncBranch fromDate toDate false repo br a) acc).1.calls := by
  intro items
  induction items with
  | nil =>
    intro acc h
    simp at h
  | cons i rest ih =>
    intro acc hmem hall hflt
    rw [List.foldl_cons]
    by_cases hi : i = (⟨b.name, some b.id⟩ : BranchItem)
    · subst hi
      have hmem1 := syncBranch_at_target fromDate toDate repo cl b db acc hok hflt
      obtain ⟨ext, hext⟩ := syncBranch_fold_calls_extends fromDate toDate false repo rest
        (syncBranch fromDate toDate false repo ⟨b.name, some b.id⟩ acc)
      rw [hext]
      exact List.mem_append.mpr (Or.inl hmem1)
    · rcases hall i (List.mem_cons_self _ _) with h | ⟨id', hid, hne⟩
      · exact absurd h hi
      · obtain ⟨⟨ext, hlog, hbr'⟩, _⟩ :=
          syncBranch_other_branch fromDate toDate false repo i acc id' hid
        apply ih
        · rcases List.mem_cons.mp hmem with h | h
          · exact absurd h.symm hi
          · exact h
        · intro j hj
          exact hall j (List.mem_cons_of_mem _ hj)
        · rw [hlog, List.filter_append, hflt]
          have hnil : ext.filter (resumeMatches repo.id b.id) = [] := by
            rw [List.filter_eq_nil_iff]
            intro e he
            have hbid := hbr' e he
            simp [resumeMatches, hbid, hne]
          rw [hnil, List.append_nil]

/-- C2 counterexample: the claim quantifies over the existence of *any*
prior successful entry with `to_date ≥ from`, but the code consults only the
most recent successful entry.  With an older entry `to_date = 10` and a
newer one `to_date = 1`, a request with `from = 5` fetches from 5, not
10. -/
theorem c2_counterexample :
    (∃ e ∈ ([⟨1, some 1, "commits", 0, 10, "success", none⟩,
             ⟨1, some 1, "commits", 0, 1, "success", none⟩] : List LogRow),
       e.repositoryId = 1 ∧ e.branchId = some 1 ∧ e.syncType = "commits" ∧
         e.status = "success" ∧ (5 : Int) ≤ e.toDate ∧ e.toDate = 10) ∧
    (syncCommits [⟨1, "org/repo", "main", .ok ⟨fun _ _ _ => .ok [], fun _ => .error "na"⟩⟩]
        5 20 false
        ⟨[], [], [], [⟨1, 1, "main"⟩],
         [⟨1, some 1, "commits", 0, 10, "success", none⟩,
          ⟨1, some 1, "commits", 0, 1, "success", none⟩], 1, 2, []⟩).1.calls =
      [(1, "main", 5, 20)] ∧
    (5 : Int) ≠ 10 := by
  refine ⟨⟨⟨1, some 1, "commits", 0, 10, "success", none⟩, by decide, by decide⟩, ?_, by decide⟩
  decide

/-- C2 amended: in `syncCommits` with `force = false`, for a repository whose
branch rows have distinct ids, the fetch for each pre-existing branch row is
issued with the effective start date given by the **most recent** successful
`commits` `sync_log` entry of that (repository, branch): its `to_date` when
that is at least the requested from-date, the requested from-date otherwise
(`resumeFrom`); entries of sibling branches — logged earlier in the same run
— do not affect it. -/
theorem c2_effective_from (repo : RepoRec) (cl : Client) (b : BranchRow)
    (db : SyncDB) (fromDate toDate : Int)
    (hok : repo.clientResult = .ok cl)
    (hb : b ∈ db.branches) (hbr : b.repositoryId = repo.id)
    (hnodup : (db.branches.map BranchRow.id).Nodup) :
    (repo.id, b.name, resumeFrom db.syncLog repo.id b.id fromDate, toDate) ∈
      (syncCommits [repo] fromDate toDate false db).1.calls ∧
    (∀ e, (db.syncLog.filter (resumeMatches repo.id b.id)).getLast? = some e →
      resumeFrom db.syncLog repo.id b.id fromDate =
        if fromDate ≤ e.toDate then e.toDate else fromDate) ∧
    ((db.syncLog.filter (resumeMatches repo.id b.id)).getLast? = none →
      resumeFrom db.syncLog repo.id b.id fromDate = fromDate) := by
  refine ⟨?_, ?_, ?_⟩
  · -- the rows of this repository, as branch items
    have hrows : branchesForRepo db repo =
        (db.branches.filter (fun r => r.repositoryId == repo.id)).map
          (fun r => ⟨r.name, some r.id⟩) := by
      unfold branchesForRepo
      rw [if_neg]
      simp only [List.isEmpty_iff, List.map_eq_nil_iff]
      intro hnil
      have : b ∈ db.branches.filter (fun r => r.repositoryId == repo.id) :=
        List.mem_filter.mpr ⟨hb, by simp [hbr]⟩
      rw [hnil] at this
      simp at this
    have htarget : (⟨b.name, some b.id⟩ : BranchItem) ∈ branchesForRepo db repo := by
      rw [hrows]
      exact List.mem_map.mpr ⟨b, List.mem_filter.mpr ⟨hb, by simp [hbr]⟩, rfl⟩
    -- every non-target item carries a row id distinct from b.id
    have hother : ∀ i ∈ branchesForRepo db repo,
        i = (⟨b.name, some b.id⟩ : BranchItem) ∨ ∃ id', i.id = some id' ∧ id' ≠ b.id := by
      intro i hi
      rw [hrows] at hi
      rcases List.mem_map.mp hi with ⟨r, hr, hmap⟩
      by_cases hrb : r.id = b.id
      · left
        have hreq : r = b := by
          rcases List.mem_filter.mp hr with ⟨hr0, _⟩
          exact List.inj_on_of_nodup_map hnodup hr0 hb hrb
        rw [← hmap, hreq]
      · right
        exact ⟨r.id, by rw [← hmap], hrb⟩
    have hfold := syncBranch_fold_target fromDate toDate repo cl b db hok
      (branchesForRepo db repo) (db, ⟨0, 0, 0, 0, []⟩) htarget hother rfl
    unfold syncCommits syncRepo
    rw [List.foldl_cons, List.foldl_nil]
    exact hfold
  · intro e he
    rw [resumeFrom_eq_matches, he]
  · intro he
    rw [resumeFrom_eq_matches, he]

/-- Witness for C2's amended statement: with a successful entry `to_date =
10` and a request from 5, the fetch is issued for `[10, 20]`. -/
theorem c2_witness :
    (1, "main", resumeFrom [⟨1, some 1, "commits", 0, 10, "success", none⟩] 1 1 5, 20) ∈
      (syncCommits [⟨1, "org/repo", "main", .ok ⟨fun _ _ _ => .ok [], fun _ => .error "na"⟩⟩]
        5 20 false
        ⟨[], [], [], [⟨1, 1, "main"⟩],
         [⟨1, some 1, "commits", 0, 10, "success", none⟩], 1, 2, []⟩).1.calls ∧
    resumeFrom [⟨1, some 1, "commits", 0, 10, "success", none⟩] 1 1 5 = 10 :=
  ⟨(c2_effective_from
      ⟨1, "org/repo", "main", .ok ⟨fun _ _ _ => .ok [], fun _ => .error "na"⟩⟩
      ⟨fun _ _ _ => .ok [], fun _ => .error "na"⟩ ⟨1, 1, "main"⟩
      ⟨[], [], [], [⟨1, 1, "main"⟩],
       [⟨1, some 1, "commits", 0, 10, "success", none⟩], 1, 2, []⟩ 5 20 rfl
      (by decide) rfl (by decide)).1,
   by decide⟩

/-! ### Claim C8: one `sync_log` entry per (repository, branch) attempt -/

/-- The per-entry shape C8 asserts for every entry a `syncCommits` run
appends: kind `commits`, the requested to-date, and either a success without
error message or a failure carrying the requested from-date and an error
message. -/
def logEntryShape (repoId : Nat) (fromDate toDate : Int) (e : LogRow) : Prop :=
  e.repositoryId = repoId ∧ e.syncType = "commits" ∧ e.toDate = toDate ∧
    ((e.status = "success" ∧ e.errorMessage = none ∧ ∃ bid, e.branchId = some bid) ∨
     (e.status = "failed" ∧ e.fromDate = fromDate ∧ ∃ m, e.errorMessage = some m))

theorem ensureBranch_syncLog (db : SyncDB) (repoId : Nat) (br : BranchItem) :
    (ensureBranch db repoId br).1.syncLog = db.syncLog := by
  rcases br with ⟨nm, bid⟩
  rcases bid with _ | i
  · rcases hf : db.branches.find? (fun b => b.repositoryId == repoId && b.name == nm)
      with _ | row
    · simp [ensureBranch, hf]
    · simp [ensureBranch, hf]
  · simp [ensureBranch]

theorem ensureBranch_branches (db : SyncDB) (repoId : Nat) (br : BranchItem) :
    ∃ bext, (ensureBranch db repoId br).1.branches = db.branches ++ bext ∧
      ∀ row ∈ bext, row.repositoryId = repoId := by
  rcases br with ⟨nm, bid⟩
  rcases bid with _ | i
  · rcases hf : db.branches.find? (fun b => b.repositoryId == repoId && b.name == nm)
      with _ | row
    · refine ⟨[⟨db.nextBranchId, repoId, nm⟩], by simp [ensureBranch, hf], ?_⟩
      intro row hrow
      rw [List.mem_singleton] at hrow
      subst hrow
      rfl
    · exact ⟨[], by simp [ensureBranch, hf], by simp⟩
  · exact ⟨[], by simp [ensureBranch], by simp⟩

/-- Every `(repository, branch)` attempt appends exactly one `sync_log`
entry: a `success` row (with the resolved branch id and no error) when the
branch completes, a `failed` row (with the pre-queried `branch.id` — `null`
for a lazily created branch — the requested from-date and the error
message) when client construction or the commit listing throws. -/
theorem syncBranch_appends_one (fromDate toDate : Int) (force : Bool) (repo : RepoRec)
    (br : BranchItem) (acc : SyncDB × SyncResults) :
    ∃ entry, (syncBranch fromDate toDate force repo br acc).1.syncLog =
        acc.1.syncLog ++ [entry] ∧
      logEntryShape repo.id fromDate toDate entry ∧
      (entry.status = "failed" → entry.branchId = br.id) := by
  unfold syncBranch
  rcases repo.clientResult with e | cl
  · refine ⟨⟨repo.id, br.id, "commits", fromDate, toDate, "failed", some e⟩, by simp, ?_, ?_⟩
    · exact ⟨rfl, rfl, rfl, Or.inr ⟨rfl, rfl, e, rfl⟩⟩
    · intro _
      rfl
  · have hens := ensureBranch_syncLog acc.1 repo.id br
    simp only [hens]
    rcases hl : cl.listCommits br.name
        (if force then fromDate
         else resumeFrom acc.1.syncLog repo.id
           (ensureBranch acc.1 repo.id br).2 fromDate) toDate with e | commits
    · refine ⟨⟨repo.id, br.id, "commits", fromDate, toDate, "failed", some e⟩,
        by simp [hl], ?_, ?_⟩
      · exact ⟨rfl, rfl, rfl, Or.inr ⟨rfl, rfl, e, rfl⟩⟩
      · intro _
        rfl
    · refine ⟨⟨repo.id, some (ensureBranch acc.1 repo.id br).2, "commits",
        (if force then fromDate
         else resumeFrom acc.1.syncLog repo.id
           (ensureBranch acc.1 repo.id br).2 fromDate), toDate, "success", none⟩,
        by simp [hl, processCommitList_syncLog, hens], ?_, ?_⟩
      · exact ⟨rfl, rfl, rfl, Or.inl ⟨rfl, rfl, _, rfl⟩⟩
      · intro h
        simp at h

theorem syncBranch_branches_ext (fromDate toDate : Int) (force : Bool) (repo : RepoRec)
    (br : BranchItem) (acc : SyncDB × SyncResults) :
    ∃ bext, (syncBranch fromDate toDate force repo br acc).1.branches =
        acc.1.branches ++ bext ∧ ∀ row ∈ bext, row.repositoryId = repo.id := by
  obtain ⟨bext, hb1, hb2⟩ := ensureBranch_branches acc.1 repo.id br
  unfold syncBranch
  rcases repo.clientResult with e | cl
  · exact ⟨[], by simp, by simp⟩
  · rcases hl : cl.listCommits br.name
        (if force then fromDate
         else resumeFrom (ensureBranch acc.1 repo.id br).1.syncLog repo.id
           (ensureBranch acc.1 repo.id br).2 fromDate) toDate with e | commits
    · exact ⟨bext, by simp [hl, hb1], hb2⟩
    · exact ⟨bext, by simp [hl, processCommitList_branches, hb1], hb2⟩

theorem syncRepo_fold_log (fromDate toDate : Int) (force : Bool) (repo : RepoRec) :
    ∀ (items : List BranchItem) (acc : SyncDB × SyncResults),
    ∃ ext bext,
      (items.foldl (fun a br => syncBranch fromDate toDate force repo br a) acc).1.syncLog =
        acc.1.syncLog ++ ext ∧
      ext.length = items.length ∧
      (∀ e ∈ ext, logEntryShape repo.id fromDate toDate e) ∧
      (items.foldl (fun a br => syncBranch fromDate toDate force repo br a) acc).1.branches =
        acc.1.branches ++ bext ∧
      (∀ row ∈ bext, row.repositoryId = repo.id) := by
  intro items
  induction items with
  | nil => exact fun acc => ⟨[], [], by simp, rfl, by simp, by simp, by simp⟩
  | cons i rest ih =>
    intro acc
    rw [List.foldl_cons]
    obtain ⟨entry, he1, he2, _⟩ := syncBranch_appends_one fromDate toDate force repo i acc
    obtain ⟨bext0, hb1, hb2⟩ := syncBranch_branches_ext fromDate toDate force repo i acc
    obtain ⟨ext, bext, g1, g2, g3, g4, g5⟩ :=
      ih (syncBranch fromDate toDate force repo i acc)
    refine ⟨entry :: ext, bext0 ++ bext, ?_, ?_, ?_, ?_, ?_⟩
    · rw [g1, he1]
      simp
    · simp [g2]
    · intro e he
      rcases List.mem_cons.mp he with h | h
      · exact h ▸ he2
      · exact g3 e h
    · rw [g4, hb1, List.append_assoc]
    · intro row hrow
      rcases List.mem_append.mp hrow with h | h
      · exact hb2 row h
      · exact g5 row h

theorem branchesForRepo_congr {dbA dbB : SyncDB} (repo : RepoRec)
    (h : dbA.branches.filter (fun b => b.repositoryId == repo.id) =
      dbB.branches.filter (fun b => b.repositoryId == repo.id)) :
    branchesForRepo dbA repo = branchesForRepo dbB repo := by
  unfold branchesForRepo
  rw [h]

theorem syncCommits_fold_log (fromDate toDate : Int) (force : Bool) (db : SyncDB) :
    ∀ (repos : List RepoRec) (acc : SyncDB × SyncResults),
    (∀ r ∈ repos, acc.1.branches.filter (fun b => b.repositoryId == r.id) =
      db.branches.filter (fun b => b.repositoryId == r.id)) →
    (repos.map RepoRec.id).Nodup →
    ∃ ext, (repos.foldl (syncRepo fromDate toDate force) acc).1.syncLog =
        acc.1.syncLog ++ ext ∧
      ext.length = (repos.map (fun r => (branchesForRepo db r).length)).sum ∧
      ∀ e ∈ ext, ∃ r ∈ repos, logEntryShape r.id fromDate toDate e := by
  intro repos
  induction repos with
  | nil => exact fun acc _ _ => ⟨[], by simp, by simp, by simp⟩
  | cons repo rest ih =>
    intro acc hflt hnodup
    rw [List.foldl_cons]
    have hbr : branchesForRepo acc.1 repo = branchesForRepo db repo :=
      branchesForRepo_congr repo (hflt repo (List.mem_cons_self _ _))
    obtain ⟨ext1, bext, h1, h2, h3, h4, h5⟩ :=
      syncRepo_fold_log fromDate toDate force repo (branchesForRepo acc.1 repo) acc
    have hrepo_eq : syncRepo fromDate toDate force acc repo =
        (branchesForRepo acc.1 repo).foldl
          (fun a br => syncBranch fromDate toDate force repo br a) acc := rfl
    have hnodup' : (rest.map RepoRec.id).Nodup := (List.nodup_cons.mp hnodup).2
    have hnotmem : repo.id ∉ rest.map RepoRec.id := (List.nodup_cons.mp hnodup).1
    have hfltrest : ∀ r ∈ rest,
        (syncRepo fromDate toDate force acc repo).1.branches.filter
          (fun b => b.repositoryId == r.id) =
        db.branches.filter (fun b => b.repositoryId == r.id) := by
      intro r hr
      rw [hrepo_eq, h4, List.filter_append]
      have hnil : bext.filter (fun b => b.repositoryId == r.id) = [] := by
        rw [List.filter_eq_nil_iff]
        intro row hrow
        have hrid := h5 row hrow
        have hne : r.id ≠ repo.id := by
          intro hcontra
          exact hnotmem (List.mem_map.mpr ⟨r, hr, hcontra⟩)
        simp only [hrid, beq_iff_eq]
        exact fun hc => hne hc.symm
      rw [hnil, List.append_nil]
      exact hflt r (List.mem_cons_of_mem _ hr)
    obtain ⟨ext2, g1, g2, g3⟩ := ih (syncRepo fromDate toDate force acc repo) hfltrest hnodup'
    refine ⟨ext1 ++ ext2, ?_, ?_, ?_⟩
    · rw [g1, hrepo_eq, h1, List.append_assoc]
    · rw [List.length_append, h2, hbr]
      simp [g2]
    · intro e he
      rcases List.mem_append.mp he with h | h
      · exact ⟨repo, List.mem_cons_self _ _, h3 e h⟩
      · obtain ⟨r, hr, hsh⟩ := g3 e h
        exact ⟨r, List.mem_cons_of_mem _ hr, hsh⟩

/-- C8 counterexample: for a repository with no stored branch rows, a
`listCommits` failure is logged with a **null** branch reference — the
lazily created branch row (id 1) is never referenced — so no `SyncLogEntry`
exists "for that (repository, branch)". -/
theorem c8_counterexample :
    (syncCommits [⟨1, "org/repo", "main",
        .ok ⟨fun _ _ _ => .error "boom", fun _ => .error "na"⟩⟩] 0 10 false
      ⟨[], [], [], [], [], 1, 1, []⟩).1.syncLog =
      [⟨1, none, "commits", 0, 10, "failed", some "boom"⟩] ∧
    (syncCommits [⟨1, "org/repo", "main",
        .ok ⟨fun _ _ _ => .error "boom", fun _ => .error "na"⟩⟩] 0 10 false
      ⟨[], [], [], [], [], 1, 1, []⟩).1.branches = [⟨1, 1, "main"⟩] ∧
    ∀ e ∈ (syncCommits [⟨1, "org/repo", "main",
        .ok ⟨fun _ _ _ => .error "boom", fun _ => .error "na"⟩⟩] 0 10 false
      ⟨[], [], [], [], [], 1, 1, []⟩).1.syncLog, e.branchId ≠ some 1 := by
  refine ⟨by decide, by decide, by decide⟩

/-- C8 amended: every `(repository, branch)` attempt inside `syncCommits`
appends exactly one `sync_log` entry of kind `commits`: `success` (resolved
branch id, no error message) when the branch completes, `failed` (the
pre-queried branch id — null when the branch row was lazily created in this
attempt — the requested from-date and the error message) when a branch-level
error is caught.  Branch failures do not prevent sibling branches or
repositories from being processed and logged: over a whole run with distinct
repository ids, the log grows by exactly one entry per attempted branch of
every repository. -/
theorem c8_one_entry_per_attempt (repos : List RepoRec) (fromDate toDate : Int)
    (force : Bool) (db : SyncDB) (hnodup : (repos.map RepoRec.id).Nodup) :
    (∀ (repo : RepoRec) (br : BranchItem) (acc : SyncDB × SyncResults),
      ∃ entry, (syncBranch fromDate toDate force repo br acc).1.syncLog =
          acc.1.syncLog ++ [entry] ∧
        logEntryShape repo.id fromDate toDate entry ∧
        (entry.status = "failed" → entry.branchId = br.id)) ∧
    (∃ ext, (syncCommits repos fromDate toDate force db).1.syncLog = db.syncLog ++ ext ∧
      ext.length = (repos.map (fun r => (branchesForRepo db r).length)).sum ∧
      ∀ e ∈ ext, ∃ r ∈ repos, logEntryShape r.id fromDate toDate e) := by
  refine ⟨fun repo br acc => syncBranch_appends_one fromDate toDate force repo br acc, ?_⟩
  exact syncCommits_fold_log fromDate toDate force db repos (db, ⟨0, 0, 0, 0, []⟩)
    (fun r _ => rfl) hnodup

/-- Witness for C8: one failing and one succeeding repository both get
logged — two entries for two attempts. -/
theorem c8_witness :
    ∃ ext, (syncCommits
        [⟨1, "org/a", "main", .ok ⟨fun _ _ _ => .error "boom", fun _ => .error "na"⟩⟩,
         ⟨2, "org/b", "main", .ok ⟨fun _ _ _ => .ok [], fun _ => .error "na"⟩⟩] 0 10 false
        ⟨[], [], [], [⟨1, 1, "main"⟩, ⟨2, 2, "main"⟩], [], 1, 3, []⟩).1.syncLog =
      ([] : List LogRow) ++ ext ∧
      ext.length = 2 ∧
      ∀ e ∈ ext, ∃ r ∈
        [(⟨1, "org/a", "main", .ok ⟨fun _ _ _ => .error "boom", fun _ => .error "na"⟩⟩ : RepoRec),
         ⟨2, "org/b", "main", .ok ⟨fun _ _ _ => .ok [], fun _ => .error "na"⟩⟩],
        logEntryShape r.id 0 10 e := by
  have h := (c8_one_entry_per_attempt
    [⟨1, "org/a", "main", .ok ⟨fun _ _ _ => .error "boom", fun _ => .error "na"⟩⟩,
     ⟨2, "org/b", "main", .ok ⟨fun _ _ _ => .ok [], fun _ => .error "na"⟩⟩] 0 10 false
    ⟨[], [], [], [⟨1, 1, "main"⟩, ⟨2, 2, "main"⟩], [], 1, 3, []⟩ (by decide)).2
  obtain ⟨ext, h1, h2, h3⟩ := h
  exact ⟨ext, h1, by rw [h2]; decide, h3⟩

/-! ## C5: identity-resolution transitivity -/

/-- Lowering an already lowered character changes nothing: the image of the
`A`..`Z` range lies in `a`..`z`, outside the range. -/
theorem jsCharLower_idem (c : Char) : jsCharLower (jsCharLower c) = jsCharLower c := by
  unfold jsCharLower
  by_cases h : 65 ≤ c.toNat ∧ c.toNat ≤ 90
  · simp only [h, and_self, if_true]
    have hv : (c.toNat + 32).isValidChar := by
      unfold Nat.isValidChar
      left; omega
    have ht : (Char.ofNat (c.toNat + 32)).toNat = c.toNat + 32 := by
      rw [Char.ofNat, dif_pos hv]
      rfl
    rw [if_neg]
    rw [ht]
    omega
  · simp only [h, if_false]

/-- `toLowerCase` is idempotent. -/
theorem jsLower_idem (s : String) : jsLower (jsLower s) = jsLower s := by
  unfold jsLower
  simp only [List.map_map]
  exact congrArg _ (List.map_congr_left fun c _ => jsCharLower_idem c)

/-- Rule 2 of `areSamePerson`: a shared non-empty e-mail domain together with
first-name Levenshtein distance below 3 makes the pair match. -/
theorem areSamePerson_rule2 (i1 i2 : Identity)
    (h1 : getEmailDomain i1.email ≠ "")
    (h2 : getEmailDomain i1.email = getEmailDomain i2.email)
    (h3 : getFirstName i1.name ≠ "")
    (h4 : getFirstName i2.name ≠ "")
    (h5 : levenshteinDistance (getFirstName i1.name) (getFirstName i2.name) < 3) :
    areSamePerson i1 i2 = true := by
  unfold areSamePerson
  by_cases hr1 : (jsLower i1.email == jsLower i2.email) = true
  · simp [hr1]
  · have h1' : getEmailDomain i2.email ≠ "" := h2 ▸ h1
    simp only [hr1, Bool.false_eq_true, if_false]
    have hr2 : (getEmailDomain i1.email != "" && getEmailDomain i1.email == getEmailDomain i2.email &&
        (getFirstName i1.name != "" && getFirstName i2.name != "" &&
          decide (levenshteinDistance (getFirstName i1.name) (getFirstName i2.name) < 3))) = true := by
      simp [h1, h1', h2, h3, h4, h5]
    simp [hr2]

/-- On a state with no identities, `processPair` creates a fresh developer
and identity row and attributes the matching commits. -/
theorem processPair_create (cs : List AuthorCommit) (n : Nat) (nm em : String) (hnm : nm ≠ "") :
    processPair ⟨[], [], cs, n⟩ (nm, em) =
      ⟨[⟨n, nm⟩], [⟨n, nm, jsLower em⟩], attributeCommits cs (jsLower em) n, n + 1⟩ := by
  unfold processPair
  simp [hnm]

/-- When the lower-cased e-mail lookup of `processPair` hits row `r`, only the
commits change: they are attributed to `r`'s developer. -/
theorem processPair_email_hit (st : GroupState) (nm em : String) (r : IdentityRow)
    (h : st.identities.find? (fun q => jsLower q.email == jsLower em) = some r) :
    processPair st (nm, em) =
      { st with commits := attributeCommits st.commits (jsLower em) r.developerId } := by
  unfold processPair
  simp only [h]

/-- When the e-mail lookup misses but the `areSamePerson` scan hits row `r`
and no identity row carries the new e-mail, `processPair` inserts an identity
row for `r`'s developer and attributes the commits to it. -/
theorem processPair_scan_hit_insert (st : GroupState) (nm em : String) (r : IdentityRow)
    (hnm : nm ≠ "")
    (h1 : st.identities.find? (fun q => jsLower q.email == jsLower em) = none)
    (h2 : st.identities.find? (fun q => areSamePerson ⟨nm, jsLower em⟩ ⟨q.name, q.email⟩) = some r)
    (h3 : st.identities.any (fun q => q.email == jsLower em) = false) :
    processPair st (nm, em) =
      { st with identities := st.identities ++ [⟨r.developerId, nm, jsLower em⟩],
                commits := attributeCommits st.commits (jsLower em) r.developerId } := by
  unfold processPair
  simp only [hnm, h1]
  simp only [beq_iff_eq, hnm, if_false, h2, h3, Bool.false_eq_true, if_neg]

/-- Three `attributeCommits` passes with the same developer id cover every
commit whose lower-cased author e-mail is among the three attributed e-mails,
provided all commits start unattributed. -/
theorem attr3 (cs : List AuthorCommit) (e1 e2 e3 : String) (d : Nat)
    (h : ∀ c ∈ cs, c.developerId = none ∧
      (jsLower c.authorEmail = e1 ∨ jsLower c.authorEmail = e2 ∨ jsLower c.authorEmail = e3)) :
    ∀ c ∈ attributeCommits (attributeCommits (attributeCommits cs e1 d) e2 d) e3 d,
      c.developerId = some d := by
  intro c hc
  simp only [attributeCommits, List.mem_map] at hc
  obtain ⟨c1, ⟨c2, ⟨c0, hc0, rfl⟩, rfl⟩, rfl⟩ := hc
  obtain ⟨hdev, hem⟩ := h c0 hc0
  by_cases b1 : jsLower c0.authorEmail = e1
  · have q1 : (jsLower c0.authorEmail == e1) = true := by simp [b1]
    simp [q1, hdev]
  · have q1 : (jsLower c0.authorEmail == e1) = false := by simp [b1]
    by_cases b2 : jsLower c0.authorEmail = e2
    · have q2 : (jsLower c0.authorEmail == e2) = true := by simp [b2]
      simp [q1, q2, hdev]
    · have q2 : (jsLower c0.authorEmail == e2) = false := by simp [b2]
      have b3 : jsLower c0.authorEmail = e3 := by tauto
      have q3 : (jsLower c0.authorEmail == e3) = true := by simp [b3]
      simp [q1, q2, q3, hdev]

/-- C5 counterexample: processing order matters.  With A = ("Zzzzzz",
"shared@corp.com"), B = ("Alice", "shared@corp.com") and C = ("Alicia",
"alicia@corp.com") — A and B share an e-mail, B and C share the domain with
first-name distance 1 — the order A, B, C attributes A and B's commits to
developer 1 but C's commit to developer 2: the e-mail hit for B records no
identity row carrying the name "Alice", so C's `areSamePerson` scan only sees
"Zzzzzz" and fails. -/
theorem c5_counterexample :
    ¬ ∃ d : Nat, ∀ c ∈ (processIdentities ⟨[], [],
        [⟨"Zzzzzz", "shared@corp.com", none⟩, ⟨"Alicia", "alicia@corp.com", none⟩], 1⟩
      [("Zzzzzz", "shared@corp.com"), ("Alice", "shared@corp.com"),
       ("Alicia", "alicia@corp.com")]).commits, c.developerId = some d := by
  intro ⟨d, hall⟩
  have h1 := hall ⟨"Zzzzzz", "shared@corp.com", some 1⟩ (by decide)
  have h2 := hall ⟨"Alicia", "alicia@corp.com", some 2⟩ (by decide)
  simp at h1 h2
  omega

/-- C5 amended: for identity pairs A, B with the same e-mail
(case-insensitively) and B, C with the same non-empty e-mail domain and
first-name Levenshtein distance below 3 (both orientations), a single
`processIdentities` run over a state with no prior identities attributes all
commits carrying the three e-mails to one and the same developer **for the
processing orders in which B's pair precedes A's** ([B,A,C], [B,C,A],
[C,B,A]); when A's pair is processed first the property can fail
(`c5_counterexample`), because the e-mail hit for B inserts no identity row,
so B's name is never recorded for the shared e-mail. -/
theorem c5_identity_transitivity
    (nA eA nB eB nC eC : String) (cs : List AuthorCommit) (n0 : Nat)
    (ord : List (String × String))
    (hnB : nB ≠ "") (hnC : nC ≠ "")
    (hAB : jsLower eA = jsLower eB)
    (hdomne : getEmailDomain (jsLower eB) ≠ "")
    (hdom : getEmailDomain (jsLower eB) = getEmailDomain (jsLower eC))
    (hfB : getFirstName nB ≠ "") (hfC : getFirstName nC ≠ "")
    (hd1 : levenshteinDistance (getFirstName nB) (getFirstName nC) < 3)
    (hd2 : levenshteinDistance (getFirstName nC) (getFirstName nB) < 3)
    (hord : ord ∈ [[(nB, eB), (nA, eA), (nC, eC)],
                   [(nB, eB), (nC, eC), (nA, eA)],
                   [(nC, eC), (nB, eB), (nA, eA)]])
    (hcs : ∀ c ∈ cs, c.developerId = none ∧
      (jsLower c.authorEmail = jsLower eA ∨ jsLower c.authorEmail = jsLower eB ∨
        jsLower c.authorEmail = jsLower eC)) :
    ∀ c ∈ (processIdentities ⟨[], [], cs, n0⟩ ord).commits,
      c.developerId = some n0 := by
  have hBCs : areSamePerson ⟨nC, jsLower eC⟩ ⟨nB, jsLower eB⟩ = true :=
    areSamePerson_rule2 _ _ (hdom ▸ hdomne) hdom.symm hfC hfB hd2
  have hCBs : areSamePerson ⟨nB, jsLower eB⟩ ⟨nC, jsLower eC⟩ = true :=
    areSamePerson_rule2 _ _ hdomne hdom hfB hfC hd1
  simp only [List.mem_cons, List.not_mem_nil, or_false] at hord
  rcases hord with rfl | rfl | rfl
  · -- order B, A, C
    have e1 := processPair_create cs n0 nB eB hnB
    have e2 : processPair (⟨[⟨n0, nB⟩], [⟨n0, nB, jsLower eB⟩],
        attributeCommits cs (jsLower eB) n0, n0 + 1⟩ : GroupState) (nA, eA) =
        ⟨[⟨n0, nB⟩], [⟨n0, nB, jsLower eB⟩],
          attributeCommits (attributeCommits cs (jsLower eB) n0) (jsLower eA) n0, n0 + 1⟩ :=
      processPair_email_hit _ nA eA ⟨n0, nB, jsLower eB⟩
        (by simp [List.find?_cons, jsLower_idem, hAB])
    by_cases hbc : jsLower eB = jsLower eC
    · have e3 : processPair (⟨[⟨n0, nB⟩], [⟨n0, nB, jsLower eB⟩],
          attributeCommits (attributeCommits cs (jsLower eB) n0) (jsLower eA) n0, n0 + 1⟩ :
            GroupState) (nC, eC) =
          ⟨[⟨n0, nB⟩], [⟨n0, nB, jsLower eB⟩],
            attributeCommits (attributeCommits (attributeCommits cs (jsLower eB) n0)
              (jsLower eA) n0) (jsLower eC) n0, n0 + 1⟩ :=
        processPair_email_hit _ nC eC ⟨n0, nB, jsLower eB⟩
          (by simp [List.find?_cons, jsLower_idem, hbc])
      have hfold : (processIdentities ⟨[], [], cs, n0⟩ [(nB, eB), (nA, eA), (nC, eC)]).commits
          = attributeCommits (attributeCommits (attributeCommits cs (jsLower eB) n0)
              (jsLower eA) n0) (jsLower eC) n0 := by
        simp only [processIdentities, List.foldl]
        rw [e1, e2, e3]
      rw [hfold]
      exact attr3 cs _ _ _ n0 (fun c hc => ⟨(hcs c hc).1, by have := (hcs c hc).2; tauto⟩)
    · have e3 : processPair (⟨[⟨n0, nB⟩], [⟨n0, nB, jsLower eB⟩],
          attributeCommits (attributeCommits cs (jsLower eB) n0) (jsLower eA) n0, n0 + 1⟩ :
            GroupState) (nC, eC) =
          ⟨[⟨n0, nB⟩], [⟨n0, nB, jsLower eB⟩, ⟨n0, nC, jsLower eC⟩],
            attributeCommits (attributeCommits (attributeCommits cs (jsLower eB) n0)
              (jsLower eA) n0) (jsLower eC) n0, n0 + 1⟩ :=
        processPair_scan_hit_insert _ nC eC ⟨n0, nB, jsLower eB⟩ hnC
          (by simp [List.find?_cons, jsLower_idem, hbc])
          (by simp [List.find?_cons, hBCs])
          (by simp [hbc])
      have hfold : (processIdentities ⟨[], [], cs, n0⟩ [(nB, eB), (nA, eA), (nC, eC)]).commits
          = attributeCommits (attributeCommits (attributeCommits cs (jsLower eB) n0)
              (jsLower eA) n0) (jsLower eC) n0 := by
        simp only [processIdentities, List.foldl]
        rw [e1, e2, e3]
      rw [hfold]
      exact attr3 cs _ _ _ n0 (fun c hc => ⟨(hcs c hc).1, by have := (hcs c hc).2; tauto⟩)
  · -- order B, C, A
    have e1 := processPair_create cs n0 nB eB hnB
    by_cases hbc : jsLower eB = jsLower eC
    · have e2 : processPair (⟨[⟨n0, nB⟩], [⟨n0, nB, jsLower eB⟩],
          attributeCommits cs (jsLower eB) n0, n0 + 1⟩ : GroupState) (nC, eC) =
          ⟨[⟨n0, nB⟩], [⟨n0, nB, jsLower eB⟩],
            attributeCommits (attributeCommits cs (jsLower eB) n0) (jsLower eC) n0, n0 + 1⟩ :=
        processPair_email_hit _ nC eC ⟨n0, nB, jsLower eB⟩
          (by simp [List.find?_cons, jsLower_idem, hbc])
      have e3 : processPair (⟨[⟨n0, nB⟩], [⟨n0, nB, jsLower eB⟩],
          attributeCommits (attributeCommits cs (jsLower eB) n0) (jsLower eC) n0, n0 + 1⟩ :
            GroupState) (nA, eA) =
          ⟨[⟨n0, nB⟩], [⟨n0, nB, jsLower eB⟩],
            attributeCommits (attributeCommits (attributeCommits cs (jsLower eB) n0)
              (jsLower eC) n0) (jsLower eA) n0, n0 + 1⟩ :=
        processPair_email_hit _ nA eA ⟨n0, nB, jsLower eB⟩
          (by simp [List.find?_cons, jsLower_idem, hAB])
      have hfold : (processIdentities ⟨[], [], cs, n0⟩ [(nB, eB), (nC, eC), (nA, eA)]).commits
          = attributeCommits (attributeCommits (attributeCommits cs (jsLower eB) n0)
              (jsLower eC) n0) (jsLower eA) n0 := by
        simp only [processIdentities, List.foldl]
        rw [e1, e2, e3]
      rw [hfold]
      exact attr3 cs _ _ _ n0 (fun c hc => ⟨(hcs c hc).1, by have := (hcs c hc).2; tauto⟩)
    · have e2 : processPair (⟨[⟨n0, nB⟩], [⟨n0, nB, jsLower eB⟩],
          attributeCommits cs (jsLower eB) n0, n0 + 1⟩ : GroupState) (nC, eC) =
          ⟨[⟨n0, nB⟩], [⟨n0, nB, jsLower eB⟩, ⟨n0, nC, jsLower eC⟩],
            attributeCommits (attributeCommits cs (jsLower eB) n0) (jsLower eC) n0, n0 + 1⟩ :=
        processPair_scan_hit_insert _ nC eC ⟨n0, nB, jsLower eB⟩ hnC
          (by simp [List.find?_cons, jsLower_idem, hbc])
          (by simp [List.find?_cons, hBCs])
          (by simp [hbc])
      have e3 : processPair (⟨[⟨n0, nB⟩], [⟨n0, nB, jsLower eB⟩, ⟨n0, nC, jsLower eC⟩],
          attributeCommits (attributeCommits cs (jsLower eB) n0) (jsLower eC) n0, n0 + 1⟩ :
            GroupState) (nA, eA) =
          ⟨[⟨n0, nB⟩], [⟨n0, nB, jsLower eB⟩, ⟨n0, nC, jsLower eC⟩],
            attributeCommits (attributeCommits (attributeCommits cs (jsLower eB) n0)
              (jsLower eC) n0) (jsLower eA) n0, n0 + 1⟩ :=
        processPair_email_hit _ nA eA ⟨n0, nB, jsLower eB⟩
          (by simp [List.find?_cons, jsLower_idem, hAB])
      have hfold : (processIdentities ⟨[], [], cs, n0⟩ [(nB, eB), (nC, eC), (nA, eA)]).commits
          = attributeCommits (attributeCommits (attributeCommits cs (jsLower eB) n0)
              (jsLower eC) n0) (jsLower eA) n0 := by
        simp only [processIdentities, List.foldl]
        rw [e1, e2, e3]
      rw [hfold]
      exact attr3 cs _ _ _ n0 (fun c hc => ⟨(hcs c hc).1, by have := (hcs c hc).2; tauto⟩)
  · -- order C, B, A
    have e1 := processPair_create cs n0 nC eC hnC
    by_cases hbc : jsLower eC = jsLower eB
    · have e2 : processPair (⟨[⟨n0, nC⟩], [⟨n0, nC, jsLower eC⟩],
          attributeCommits cs (jsLower eC) n0, n0 + 1⟩ : GroupState) (nB, eB) =
          ⟨[⟨n0, nC⟩], [⟨n0, nC, jsLower eC⟩],
            attributeCommits (attributeCommits cs (jsLower eC) n0) (jsLower eB) n0, n0 + 1⟩ :=
        processPair_email_hit _ nB eB ⟨n0, nC, jsLower eC⟩
          (by simp [List.find?_cons, jsLower_idem, hbc])
      have e3 : processPair (⟨[⟨n0, nC⟩], [⟨n0, nC, jsLower eC⟩],
          attributeCommits (attributeCommits cs (jsLower eC) n0) (jsLower eB) n0, n0 + 1⟩ :
            GroupState) (nA, eA) =
          ⟨[⟨n0, nC⟩], [⟨n0, nC, jsLower eC⟩],
            attributeCommits (attributeCommits (attributeCommits cs (jsLower eC) n0)
              (jsLower eB) n0) (jsLower eA) n0, n0 + 1⟩ :=
        processPair_email_hit _ nA eA ⟨n0, nC, jsLower eC⟩
          (by simp [List.find?_cons, jsLower_idem, hbc, hAB])
      have hfold : (processIdentities ⟨[], [], cs, n0⟩ [(nC, eC), (nB, eB), (nA, eA)]).commits
          = attributeCommits (attributeCommits (attributeCommits cs (jsLower eC) n0)
              (jsLower eB) n0) (jsLower eA) n0 := by
        simp only [processIdentities, List.foldl]
        rw [e1, e2, e3]
      rw [hfold]
      exact attr3 cs _ _ _ n0 (fun c hc => ⟨(hcs c hc).1, by have := (hcs c hc).2; tauto⟩)
    · have e2 : processPair (⟨[⟨n0, nC⟩], [⟨n0, nC, jsLower eC⟩],
          attributeCommits cs (jsLower eC) n0, n0 + 1⟩ : GroupState) (nB, eB) =
          ⟨[⟨n0, nC⟩], [⟨n0, nC, jsLower eC⟩, ⟨n0, nB, jsLower eB⟩],
            attributeCommits (attributeCommits cs (jsLower eC) n0) (jsLower eB) n0, n0 + 1⟩ :=
        processPair_scan_hit_insert _ nB eB ⟨n0, nC, jsLower eC⟩ hnB
          (by simp [List.find?_cons, jsLower_idem, hbc])
          (by simp [List.find?_cons, hCBs])
          (by simp [hbc])
      have e3 : processPair (⟨[⟨n0, nC⟩], [⟨n0, nC, jsLower eC⟩, ⟨n0, nB, jsLower eB⟩],
          attributeCommits (attributeCommits cs (jsLower eC) n0) (jsLower eB) n0, n0 + 1⟩ :
            GroupState) (nA, eA) =
          ⟨[⟨n0, nC⟩], [⟨n0, nC, jsLower eC⟩, ⟨n0, nB, jsLower eB⟩],
            attributeCommits (attributeCommits (attributeCommits cs (jsLower eC) n0)
              (jsLower eB) n0) (jsLower eA) n0, n0 + 1⟩ :=
        processPair_email_hit _ nA eA ⟨n0, nB, jsLower eB⟩
          (by simp [List.find?_cons, jsLower_idem, hAB, hbc])
      have hfold : (processIdentities ⟨[], [], cs, n0⟩ [(nC, eC), (nB, eB), (nA, eA)]).commits
          = attributeCommits (attributeCommits (attributeCommits cs (jsLower eC) n0)
              (jsLower eB) n0) (jsLower eA) n0 := by
        simp only [processIdentities, List.foldl]
        rw [e1, e2, e3]
      rw [hfold]
      exact attr3 cs _ _ _ n0 (fun c hc => ⟨(hcs c hc).1, by have := (hcs c hc).2; tauto⟩)

/-- C5 witness: with B = ("Alice", "shared@corp.com") processed first,
A = ("Zzzzzz", "Shared@Corp.com") (same e-mail up to case) and C = ("Alicia",
"alicia@corp.com") (same domain, first-name distance 1) both land on
developer 1, as do both commits. -/
theorem c5_witness :
    ((processIdentities ⟨[], [],
        [⟨"Zzzzzz", "Shared@Corp.com", none⟩, ⟨"Alicia", "alicia@corp.com", none⟩], 1⟩
      [("Alice", "shared@corp.com"), ("Zzzzzz", "Shared@Corp.com"),
       ("Alicia", "alicia@corp.com")]).commits.all
      (fun c => c.developerId == some 1)) = true := by
  have h := c5_identity_transitivity "Zzzzzz" "Shared@Corp.com" "Alice" "shared@corp.com"
    "Alicia" "alicia@corp.com"
    [⟨"Zzzzzz", "Shared@Corp.com", none⟩, ⟨"Alicia", "alicia@corp.com", none⟩] 1
    [("Alice", "shared@corp.com"), ("Zzzzzz", "Shared@Corp.com"), ("Alicia", "alicia@corp.com")]
    (by decide) (by decide) (by decide) (by decide) (by decide) (by decide) (by decide)
    (by decide) (by decide) (by decide) (by decide)
  rw [List.all_eq_true]
  intro c hc
  simp [h c hc]

end GitAnalyzer
